import Mathlib

set_option maxHeartbeats 1000000

/-!
# Shallow embedding of the `TopicPathFinder` module

This file embeds the topic path-finder of the repository (class
`TopicPathFinder`: graph construction from topic records, content-similarity
edge weights, Dijkstra-style shortest path, exhaustive all-paths DFS,
parent-chain ancestor walks, bounded neighborhood search and graph
statistics) and proves properties of the embedding.

JavaScript `Map`s are modelled as insertion-ordered association lists and
JavaScript `Set`s of strings as insertion-ordered duplicate-free lists.
JavaScript numbers are modelled as rationals, with `Option ℚ` standing for a
number that may be `Infinity` (`none`).  `while` loops are modelled as
fuel-indexed recursion; every use passes fuel that dominates the number of
iterations the loop can perform, except where the source loop can genuinely
diverge, in which case running out of fuel models the divergence.
-/

/-- Input topic record (interface `ITopicData`; only the fields the
path-finder reads). -/
structure ITopicData where
  id : String
  name : String
  content : String
  parentTopicId : Option String
deriving Repr, DecidableEq

/-! ### JavaScript `Map` / `Set` models -/

/-- A JS `Map` keyed by strings: `set` overwrites the value in place keeping
the first-insertion key order, `get` returns `undefined` (`none`) for a
missing key. -/
abbrev JSMap (α : Type) := List (String × α)

def jget {α : Type} (m : JSMap α) (k : String) : Option α :=
  (m.find? (fun e => e.1 = k)).map (fun e => e.2)

def jset {α : Type} : JSMap α → String → α → JSMap α
  | [], k, v => [(k, v)]
  | e :: rest, k, v => if e.1 = k then (k, v) :: rest else e :: jset rest k v

def jhas {α : Type} (m : JSMap α) (k : String) : Bool := (jget m k).isSome

def jkeys {α : Type} (m : JSMap α) : List String := m.map (fun e => e.1)

/-- JS `Set.add` on a set of strings: appends if absent. -/
def sadd (s : List String) (x : String) : List String :=
  if s.contains x then s else s ++ [x]

/-! ### Word extraction and edge weights -/

def stopWords : List String :=
  ["the", "a", "an", "and", "or", "but", "in", "on", "at", "to", "for",
   "of", "with", "by", "is", "are", "was", "were", "be", "been", "being",
   "have", "has", "had", "do", "does", "did", "will", "would", "could",
   "should"]

/-- The `\w` character class of the source regex: ASCII alphanumerics and
underscore. -/
def isWordChar (c : Char) : Bool := c.isAlphanum || c = '_'

/-- Whitespace characters split on by the source.  Every character that is
neither `\w` nor whitespace has already been replaced by a space at the
point of splitting, so the exact extent of the whitespace class does not
affect the resulting word set. -/
def isSpaceChar (c : Char) : Bool := c = ' ' || c = '\t' || c = '\n' || c = '\r'

/-- Splits a character list into its maximal runs of non-space characters
(`split(/\s+/)` up to empty tokens, which the caller filters out by
length). -/
def splitWordsAux : List Char → List Char → List String
  | [], [] => []
  | [], acc => [String.mk acc.reverse]
  | c :: rest, acc =>
    if isSpaceChar c then
      match acc with
      | [] => splitWordsAux rest []
      | _ => String.mk acc.reverse :: splitWordsAux rest []
    else splitWordsAux rest (c :: acc)

/-- `new Set(array)`: insert the elements in order, skipping duplicates. -/
def jsSetOf (l : List String) : List String := l.foldl sadd []

/-- `extractWords` of the source: lower-case the text, replace every
character that is neither `\w` nor whitespace by a space, split on
whitespace, keep the words longer than 2 characters that are not stop
words, and collect them into a set. -/
def extractWords (text : String) : List String :=
  let lowered := text.toList.map Char.toLower
  let replaced := lowered.map (fun c => if !isWordChar c && !isSpaceChar c then ' ' else c)
  let words := splitWordsAux replaced []
  jsSetOf (words.filter (fun w => w.length > 2 && !(stopWords.contains w)))

/-- `calculateContentSimilarity` of the source: Jaccard similarity of the
significant-word sets of `name + " " + content`, `0` when either set is
empty. -/
def calculateContentSimilarity (topic1 topic2 : ITopicData) : ℚ :=
  let words1 := extractWords (topic1.name ++ " " ++ topic1.content)
  let words2 := extractWords (topic2.name ++ " " ++ topic2.content)
  if words1.length = 0 ∨ words2.length = 0 then 0
  else
    let intersection := jsSetOf (words1.filter (fun word => words2.contains word))
    let union := jsSetOf (words1 ++ words2)
    (intersection.length : ℚ) / (union.length : ℚ)

/-- Body of `getEdgeWeight` on the two resolved topic records (the method
first resolves both ids in the `topics` map; see `getEdgeWeight`).  The
parent-relationship conditional of the source assigns the value the weight
already has, and is kept verbatim. -/
def edgeWeightOf (fromTopic toTopic : ITopicData) : ℚ :=
  let weight : ℚ := 1
  let weight :=
    if fromTopic.parentTopicId = some toTopic.id ∨ toTopic.parentTopicId = some fromTopic.id
    then 1 else weight
  weight + (1 - calculateContentSimilarity fromTopic toTopic) * (1/2)

/-! ### Graph construction -/

structure Graph where
  topics : JSMap ITopicData
  adjacencyList : JSMap (List String)
deriving Repr

/-- JS truthiness of an optional string: `undefined` and `""` are falsy. -/
def truthy : Option String → Bool
  | none => false
  | some s => s ≠ ""

/-- `adjacencyList.get(k)?.add(x)`: a no-op when the key is missing. -/
def adjAdd (m : JSMap (List String)) (k x : String) : JSMap (List String) :=
  match jget m k with
  | some l => jset m k (sadd l x)
  | none => m

/-- `buildGraph` of the source: first register every record in both maps,
then for every record whose `parentTopicId` is truthy and resolves in the
`topics` map add the child/parent edge in both directions. -/
def buildGraph (tps : List ITopicData) : Graph :=
  let g0 : Graph := tps.foldl
    (fun g t => ⟨jset g.topics t.id t, jset g.adjacencyList t.id []⟩) ⟨[], []⟩
  tps.foldl
    (fun g t =>
      match t.parentTopicId with
      | some p =>
        if p ≠ "" ∧ jhas g.topics p then
          { g with adjacencyList := adjAdd (adjAdd g.adjacencyList p t.id) t.id p }
        else g
      | none => g) g0

/-- `getEdgeWeight` of the source.  Its callers only pass ids present in
the `topics` map; on a missing id the source would fail on the non-null
assertion, so that branch is a dead default. -/
def getEdgeWeight (g : Graph) (fromId toId : String) : ℚ :=
  match jget g.topics fromId, jget g.topics toId with
  | some fromTopic, some toTopic => edgeWeightOf fromTopic toTopic
  | _, _ => 0

/-- `calculatePathDistance` of the source: sum of the edge weights of the
consecutive pairs of the path. -/
def calculatePathDistance (g : Graph) : List String → ℚ
  | a :: b :: rest => getEdgeWeight g a b + calculatePathDistance g (b :: rest)
  | _ => 0

/-- The neighbor list `adjacencyList.get(u) || new Set()`. -/
def adjOf (g : Graph) (u : String) : List String := (jget g.adjacencyList u).getD []

/-- `v` is a neighbor of `u` in the adjacency structure. -/
def isEdge (g : Graph) (u v : String) : Prop := v ∈ adjOf g u

/-! ### Sorting (JS `Array.sort` with an ascending numeric comparator) -/

def insertBy {α : Type} (le : α → α → Bool) (x : α) : List α → List α
  | [] => [x]
  | y :: ys => if le x y then x :: y :: ys else y :: insertBy le x ys

def sortBy {α : Type} (le : α → α → Bool) : List α → List α
  | [] => []
  | x :: xs => insertBy le x (sortBy le xs)

/-! ### Dijkstra (`findShortestPath`) -/

/-- A JS `number` distance that may be `Infinity` (`none`). -/
abbrev QInf := Option ℚ

/-- `<` on distances, `none` standing for `Infinity`. -/
def qinfLt : QInf → QInf → Bool
  | some a, some b => decide (a < b)
  | some _, none => true
  | none, _ => false

/-- `≤` on distances, `none` standing for `Infinity`. -/
def qinfLe : QInf → QInf → Bool
  | some a, some b => decide (a ≤ b)
  | _, none => true
  | none, some _ => false

def qinfAdd (d : QInf) (w : ℚ) : QInf := d.map (fun q => q + w)

def dgetD {α : Type} (m : JSMap α) (k : String) (dflt : α) : α := (jget m k).getD dflt

structure DState where
  distances : JSMap QInf
  previous : JSMap (Option String)
  visited : List String
  unvisited : List String
deriving Repr

/-- The initialization loop of `findShortestPath`: every topic id gets
distance `Infinity` except the start at `0`, no predecessor, and is put in
the unvisited set. -/
def initDState (g : Graph) (startId : String) : DState :=
  (jkeys g.topics).foldl
    (fun st topicId =>
      { distances := jset st.distances topicId (if topicId = startId then some 0 else none)
        previous := jset st.previous topicId none
        visited := st.visited
        unvisited := sadd st.unvisited topicId })
    ⟨[], [], [], []⟩

/-- The minimum-selection scan of the source: iterate the unvisited ids in
insertion order keeping the first node whose distance strictly improves on
the minimum so far. -/
def scanMin (dist : JSMap QInf) : List String → Option String → QInf → Option String
  | [], cur, _ => cur
  | nodeId :: rest, cur, minDistance =>
    let d := dgetD dist nodeId none
    if qinfLt d minDistance then scanMin dist rest (some nodeId) d
    else scanMin dist rest cur minDistance

/-- The neighbor-relaxation step of the source loop body. -/
def relaxOne (g : Graph) (currentNode : String) (st : DState) (neighborId : String) : DState :=
  if st.visited.contains neighborId then st
  else
    let currentDistance := dgetD st.distances currentNode none
    let edgeWeight := getEdgeWeight g currentNode neighborId
    let newDistance := qinfAdd currentDistance edgeWeight
    if qinfLt newDistance (dgetD st.distances neighborId none) then
      { st with distances := jset st.distances neighborId newDistance
                previous := jset st.previous neighborId (some currentNode) }
    else st

/-- The `while (unvisited.size > 0)` loop of `findShortestPath`.  Each
iteration that does not exit removes exactly one id from the unvisited
set, so fuel equal to the initial unvisited size makes the fuel-zero case
unreachable. -/
def dijkstraLoop (g : Graph) (endId : String) : Nat → DState → DState
  | 0, st => st
  | fuel + 1, st =>
    if st.unvisited.isEmpty then st
    else
      match scanMin st.distances st.unvisited none none with
      | none => st
      | some currentNode =>
        let st' : DState :=
          { st with unvisited := st.unvisited.erase currentNode
                    visited := sadd st.visited currentNode }
        if currentNode = endId then st'
        else dijkstraLoop g endId fuel ((adjOf g currentNode).foldl (relaxOne g currentNode) st')

/-- `previous.get(currentId) || null`: both a missing value and the falsy
empty string collapse to `null`. -/
def jsOrNull : Option (Option String) → Option String
  | none => none
  | some none => none
  | some (some s) => if s = "" then none else some s

/-- The predecessor walk of `reconstructPath`.  The walk pushes the chain
`endId, previous(endId), …` front-first and stops at `startId` or at a
falsy predecessor; fuel bounds the chain length (the final distances make
the chain strictly decreasing, hence shorter than the number of keys). -/
def reconPathGo (previous : JSMap (Option String)) (startId : String) :
    Nat → Option String → List String → List String
  | 0, _, path => path
  | fuel + 1, currentId, path =>
    match currentId with
    | none => path
    | some c =>
      let path' := c :: path
      if c = startId then path'
      else reconPathGo previous startId fuel (jsOrNull (jget previous c)) path'

/-- `reconstructPath` of the source: walk predecessors from `endId`; if the
resulting chain does not start with `startId`, no path was found. -/
def reconstructPath (previous : JSMap (Option String)) (startId endId : String)
    (fuel : Nat) : List String :=
  let path := reconPathGo previous startId fuel (some endId) []
  if path.head? = some startId then path else []

structure ShortestPathOut where
  path : List String
  distance : QInf
  topics : List ITopicData
deriving Repr, DecidableEq

/-- `findShortestPath` of the source. -/
def findShortestPath (g : Graph) (startId endId : String) : Option ShortestPathOut :=
  if ¬ (jhas g.topics startId ∧ jhas g.topics endId) then none
  else if startId = endId then
    some { path := [startId], distance := some 0, topics := (jget g.topics startId).toList }
  else
    let st0 := initDState g startId
    let stF := dijkstraLoop g endId st0.unvisited.length st0
    let path := reconstructPath stF.previous startId endId (stF.previous.length + 1)
    if path.isEmpty then none
    else some { path := path, distance := dgetD stF.distances endId none
                topics := path.filterMap (jget g.topics) }

/-! ### All paths (`findAllPaths` / `dfsAllPaths`) -/

mutual

/-- `dfsAllPaths` of the source.  The source mutates `currentPath` /
`visited` and restores them on exit; passing the extended values down and
keeping the caller's values amounts to the same thing.  The depth guard
bounds the recursion, so fuel `maxDepth + 2 - currentPath.length` is
always sufficient and the fuel-zero case is unreachable. -/
def dfsAllPaths (g : Graph) (endId : String) (maxDepth : Nat) :
    Nat → String → List String → List String → List (List String) → List (List String)
  | 0, _, _, _, allPaths => allPaths
  | fuel + 1, currentId, currentPath, visited, allPaths =>
    if currentPath.length > maxDepth then allPaths
    else
      let currentPath' := currentPath ++ [currentId]
      let visited' := sadd visited currentId
      if currentId = endId then allPaths ++ [currentPath']
      else dfsNeighbors g endId maxDepth fuel currentPath' visited' allPaths (adjOf g currentId)

/-- The `for (const neighborId of neighbors)` loop inside `dfsAllPaths`. -/
def dfsNeighbors (g : Graph) (endId : String) (maxDepth : Nat) :
    Nat → List String → List String → List (List String) → List String → List (List String)
  | _, _, _, allPaths, [] => allPaths
  | fuel, currentPath', visited', allPaths, neighborId :: rest =>
    let allPaths' :=
      if visited'.contains neighborId then allPaths
      else dfsAllPaths g endId maxDepth fuel neighborId currentPath' visited' allPaths
    dfsNeighbors g endId maxDepth fuel currentPath' visited' allPaths' rest

end

/-- `findAllPaths` of the source: collect every simple path of at most
`maxDepth` hops by DFS, annotate each with its distance, sort ascending by
distance. -/
def findAllPaths (g : Graph) (startId endId : String) (maxDepth : Nat) :
    List ShortestPathOut :=
  if ¬ (jhas g.topics startId ∧ jhas g.topics endId) then []
  else
    let allPaths := dfsAllPaths g endId maxDepth (maxDepth + 2) startId [] [] []
    sortBy (fun a b => qinfLe a.distance b.distance)
      (allPaths.map (fun path =>
        { path := path, distance := calculatePathDistance g path
          topics := path.filterMap (jget g.topics) }))

/-! ### Parent-chain walks (`getAncestors`, `getTopicDepth`) -/

/-- One step of the parent-chain walks: `topics.get(c)?.parentTopicId`. -/
def parentStep (g : Graph) (c : String) : Option String :=
  (jget g.topics c).bind (fun topic => topic.parentTopicId)

/-- The `currentId` of the `getAncestors` loop after `n` iterations,
starting from `some start`.  A falsy value is absorbing (the loop has
exited). -/
def ancIter (g : Graph) (start : String) : Nat → Option String
  | 0 => some start
  | n + 1 =>
    match ancIter g start n with
    | some c => if c = "" then none else parentStep g c
    | none => none

/-- The `while (currentId)` loop of `getAncestors` halts exactly when the
walk reaches a falsy `currentId`.  The source has no revisit guard. -/
def ancestorsWalkHalts (g : Graph) (start : String) : Prop :=
  ∃ n, truthy (ancIter g start n) = false

/-- `getAncestors` of the source, fuel-indexed: `none` models divergence
(fuel exhausted while `currentId` is still truthy). -/
def getAncestorsF (g : Graph) : Nat → Option String → List String → Option (List String)
  | 0, currentId, acc => if truthy currentId then none else some acc
  | fuel + 1, currentId, acc =>
    match currentId with
    | some c =>
      if c = "" then some acc
      else getAncestorsF g fuel (parentStep g c) (acc ++ [c])
    | none => some acc

/-- `getTopicDepth` of the source, fuel-indexed: counts parent-chain hops,
breaking when the current topic is missing or has a falsy parent; `none`
models divergence.  This loop has no revisit guard either. -/
def getTopicDepthF (g : Graph) : Nat → String → Nat → Option Nat
  | 0, _, _ => none
  | fuel + 1, currentId, depth =>
    if currentId = "" then some depth
    else
      match parentStep g currentId with
      | none => some depth
      | some p => if p = "" then some depth else getTopicDepthF g fuel p (depth + 1)

/-! ### Closest common ancestor (`findClosestCommonAncestor`) -/

/-- `findClosestCommonAncestor` of the source, fuel-indexed for the
parent-chain walks and depth computations; outer `none` models divergence,
inner `none` the source's `null` result. -/
def findClosestCommonAncestorF (g : Graph) (fuel : Nat) (topicId1 topicId2 : String) :
    Option (Option String) :=
  if ¬ (jhas g.topics topicId1 ∧ jhas g.topics topicId2) then some none
  else
    match getAncestorsF g fuel (some topicId1) [], getAncestorsF g fuel (some topicId2) [] with
    | some ancestors1, some ancestors2 =>
      let commonAncestors := ancestors1.filter (fun a => ancestors2.contains a)
      match commonAncestors with
      | [] => some none
      | c0 :: _ =>
        match getTopicDepthF g fuel c0 0 with
        | none => none
        | some d0 =>
          let final := commonAncestors.foldlM
            (fun (acc : String × Nat) ancestor =>
              (getTopicDepthF g fuel ancestor 0).map
                (fun depth => if depth > acc.2 then (ancestor, depth) else acc))
            (c0, d0)
          final.map (fun acc => some acc.1)
    | _, _ => none

/-! ### Bounded neighborhood search (`findTopicsWithinDistance`) -/

structure PathNode where
  topicId : String
  distance : ℚ
  parent : Option String
deriving Repr, DecidableEq

/-- Total size of the adjacency lists. -/
def totalAdjSize (g : Graph) : Nat := (g.adjacencyList.map (fun e => e.2.length)).sum

/-- The queue loop of `findTopicsWithinDistance`.  Each iteration consumes
one queue entry; entries are only pushed while visiting a node and every
node is visited at most once, so the number of iterations is bounded by
one plus the total size of the adjacency lists — the fuel the wrapper
passes. -/
def withinDistanceLoop (g : Graph) (maxDistance : ℚ) :
    Nat → List PathNode → JSMap ℚ → List String → JSMap ℚ
  | 0, _, distances, _ => distances
  | fuel + 1, queue, distances, visited =>
    match queue with
    | [] => distances
    | current :: rest =>
      if visited.contains current.topicId then
        withinDistanceLoop g maxDistance fuel rest distances visited
      else
        let visited' := sadd visited current.topicId
        if current.distance ≥ maxDistance then
          withinDistanceLoop g maxDistance fuel rest distances visited'
        else
          let step := (adjOf g current.topicId).foldl
            (fun (acc : List PathNode × JSMap ℚ) neighborId =>
              if visited'.contains neighborId then acc
              else
                let newDistance := current.distance + getEdgeWeight g current.topicId neighborId
                let better :=
                  match jget acc.2 neighborId with
                  | none => true
                  | some d => decide (newDistance < d)
                if decide (newDistance ≤ maxDistance) && better then
                  (acc.1 ++ [{ topicId := neighborId, distance := newDistance
                               parent := some current.topicId }],
                   jset acc.2 neighborId newDistance)
                else acc)
            (rest, distances)
          withinDistanceLoop g maxDistance fuel step.1 step.2 visited'

/-- `findTopicsWithinDistance` of the source: queue-based expansion from
`topicId`, then the distances map is listed, re-wrapped without the search
parent, filtered to `maxDistance` and sorted ascending. -/
def findTopicsWithinDistance (g : Graph) (topicId : String) (maxDistance : ℚ) :
    List PathNode :=
  if ¬ jhas g.topics topicId then []
  else
    let distances0 : JSMap ℚ := jset [] topicId 0
    let queue0 : List PathNode := [{ topicId := topicId, distance := 0, parent := none }]
    let distances := withinDistanceLoop g maxDistance (totalAdjSize g + 2) queue0 distances0 []
    sortBy (fun a b => decide (a.distance ≤ b.distance))
      ((distances.map (fun e => ({ topicId := e.1, distance := e.2, parent := none } : PathNode))).filter
        (fun node => decide (node.distance ≤ maxDistance)))

/-! ### Graph statistics (`getGraphStats`) -/

structure GraphStats where
  nodeCount : Nat
  edgeCount : ℚ
  maxDepth : WithBot Nat
  rootNodes : List String
deriving Repr, DecidableEq

/-- `getGraphStats` of the source, fuel-indexed through `getTopicDepth`:
`none` models divergence of any depth walk.  `Math.max` over an empty
collection of depths is `-Infinity`, the bottom of `WithBot Nat`. -/
def getGraphStatsF (g : Graph) (fuel : Nat) : Option GraphStats :=
  let edgeCount : ℚ := ((g.adjacencyList.map (fun e => e.2.length)).sum : ℚ) / 2
  let rootNodes := ((g.topics.map (fun e => e.2)).filter
    (fun topic => !truthy topic.parentTopicId)).map (fun topic => topic.id)
  ((jkeys g.topics).mapM (fun topicId => getTopicDepthF g fuel topicId 0)).map
    (fun depths =>
      { nodeCount := g.topics.length
        edgeCount := edgeCount
        maxDepth := (depths.map (fun d => (d : Nat))).maximum
        rootNodes := rootNodes })

/-! ### Paths in the graph (specification side) -/

instance (g : Graph) : DecidableRel (isEdge g) :=
  fun u v => inferInstanceAs (Decidable (v ∈ adjOf g u))

/-- Executable check that consecutive elements are adjacency edges. -/
def pathChainB (g : Graph) : List String → Bool
  | a :: b :: rest => (adjOf g a).contains b && pathChainB g (b :: rest)
  | _ => true

/-- `p` is a path from `s` to `t` following adjacency edges. -/
def IsPathFrom (g : Graph) (s t : String) (p : List String) : Prop :=
  p.head? = some s ∧ p.getLast? = some t ∧ List.Chain' (isEdge g) p

/-- `t` is reachable from `s` along adjacency edges. -/
def Reachable (g : Graph) (s t : String) : Prop :=
  ∃ p, IsPathFrom g s t p

/-! ### Concrete inputs used by witnesses and counterexamples -/

/-- The five-topic hierarchy of the repository's own test suite. -/
def exSample : List ITopicData :=
  [{ id := "root", name := "Root Topic", content := "Root content", parentTopicId := none },
   { id := "child1", name := "Child 1", content := "Child 1 content", parentTopicId := some "root" },
   { id := "child2", name := "Child 2", content := "Child 2 content", parentTopicId := some "root" },
   { id := "grandchild1", name := "Grandchild 1", content := "Grandchild 1 content",
     parentTopicId := some "child1" },
   { id := "grandchild2", name := "Grandchild 2", content := "Grandchild 2 content",
     parentTopicId := some "child2" }]

def exSampleG : Graph := buildGraph exSample

/-- A record with the empty string as id, reachable from its parent. -/
def exEmptyId : List ITopicData :=
  [{ id := "p", name := "xx", content := "mathematics", parentTopicId := none },
   { id := "", name := "xx", content := "mathematics", parentTopicId := some "p" }]

def exEmptyIdG : Graph := buildGraph exEmptyId

/-- The two-topic parent cycle of the repository's own test suite. -/
def exCycle : List ITopicData :=
  [{ id := "topic1", name := "Topic 1", content := "Content 1", parentTopicId := some "topic2" },
   { id := "topic2", name := "Topic 2", content := "Content 2", parentTopicId := some "topic1" }]

def exCycleG : Graph := buildGraph exCycle

/-- A single topic whose parent reference does not resolve. -/
def exDangling : List ITopicData :=
  [{ id := "a", name := "xx", content := "yy", parentTopicId := some "zzz" }]

def exDanglingG : Graph := buildGraph exDangling

/-- A diamond with a pendant node: edges s-a, s-b, a-u, b-u, u-v, where the
s-a and a-u edges are heavy (disjoint vocabulary) and the others light
(identical vocabulary).  The queue of `findTopicsWithinDistance` visits `u`
through the heavy branch first. -/
def exFifo : List ITopicData :=
  [{ id := "s", name := "xx", content := "mathematics", parentTopicId := some "a" },
   { id := "a", name := "xx", content := "zoology", parentTopicId := some "u" },
   { id := "b", name := "xx", content := "mathematics", parentTopicId := some "s" },
   { id := "u", name := "xx", content := "mathematics", parentTopicId := some "b" },
   { id := "v", name := "xx", content := "mathematics", parentTopicId := some "u" }]

def exFifoG : Graph := buildGraph exFifo

/-- Two records whose contents share all significant words but whose names
differ. -/
def exShareContent1 : ITopicData :=
  { id := "c1", name := "apple", content := "mathematics", parentTopicId := none }

def exShareContent2 : ITopicData :=
  { id := "c2", name := "banana", content := "mathematics", parentTopicId := none }

/-- Two records with no significant words at all. -/
def exNoWords1 : ITopicData :=
  { id := "e1", name := "x", content := "y", parentTopicId := none }

def exNoWords2 : ITopicData :=
  { id := "e2", name := "x", content := "y", parentTopicId := none }

/-- Two records with identical (and nonempty) significant-word sets. -/
def exEqualA : ITopicData :=
  { id := "ea", name := "xx", content := "mathematics", parentTopicId := none }

def exEqualB : ITopicData :=
  { id := "eb", name := "xx", content := "mathematics", parentTopicId := none }

/-- Two records with disjoint nonempty significant-word sets. -/
def exDisjA : ITopicData :=
  { id := "da", name := "xx", content := "zoology", parentTopicId := none }

def exDisjB : ITopicData :=
  { id := "db", name := "xx", content := "botany", parentTopicId := none }

/-- The last record of the list carrying a given id (what `Map.set`
retains after the registration loop). -/
def lastRecordOf (tps : List ITopicData) (id : String) : Option ITopicData :=
  (tps.filter (fun r => r.id = id)).getLast?

/-- The property every path recorded by the DFS satisfies. -/
def DfsGood (maxDepth : Nat) (p : List String) : Prop :=
  p.Nodup ∧ p.length ≤ maxDepth + 1

/-- Invariant of the Dijkstra loop state.  `s` is the start id and `t`
the target; `t` is still unsettled while the loop runs. -/
structure DInv (g : Graph) (s t : String) (st : DState) : Prop where
  dkeys : jkeys st.distances = jkeys g.topics
  pkeys : jkeys st.previous = jkeys g.topics
  unvNodup : st.unvisited.Nodup
  part : ∀ v, v ∈ jkeys g.topics ↔ (v ∈ st.visited ∨ v ∈ st.unvisited)
  disj : ∀ v ∈ st.visited, v ∉ st.unvisited
  tUnv : t ∈ st.unvisited
  distS : dgetD st.distances s none = some 0
  nonneg : ∀ v q, dgetD st.distances v none = some q → 0 ≤ q
  sound : ∀ v q, dgetD st.distances v none = some q →
    ∃ p, IsPathFrom g s v p ∧ calculatePathDistance g p = q
  prevSome : ∀ v u, dgetD st.previous v none = some u →
    u ∈ st.visited ∧ isEdge g u v ∧ ∃ du, dgetD st.distances u none = some du ∧
      dgetD st.distances v none = some (du + getEdgeWeight g u v)
  finToPrev : ∀ v q, dgetD st.distances v none = some q →
    v = s ∨ ∃ u, dgetD st.previous v none = some u
  visFin : ∀ u ∈ st.visited, ∃ q, dgetD st.distances u none = some q
  mono : ∀ u ∈ st.visited, ∀ x ∈ st.unvisited,
    qinfLe (dgetD st.distances u none) (dgetD st.distances x none) = true
  relaxed : ∀ u ∈ st.visited, ∀ v, isEdge g u v →
    qinfLe (dgetD st.distances v none)
      (qinfAdd (dgetD st.distances u none) (getEdgeWeight g u v)) = true

/-- What holds of the state the Dijkstra loop returns. -/
structure DFinal (g : Graph) (s t : String) (st : DState) : Prop where
  dkeys : jkeys st.distances = jkeys g.topics
  pkeys : jkeys st.previous = jkeys g.topics
  distS : dgetD st.distances s none = some 0
  sound : ∀ v q, dgetD st.distances v none = some q →
    ∃ p, IsPathFrom g s v p ∧ calculatePathDistance g p = q
  prevSome : ∀ v u, dgetD st.previous v none = some u →
    u ∈ jkeys g.topics ∧ isEdge g u v ∧ ∃ du, dgetD st.distances u none = some du ∧
      dgetD st.distances v none = some (du + getEdgeWeight g u v)
  finToPrev : ∀ v q, dgetD st.distances v none = some q →
    v = s ∨ ∃ u, dgetD st.previous v none = some u
  outcome : (dgetD st.distances t none = none ∧ ∀ p, ¬ IsPathFrom g s t p) ∨
    (∃ d, dgetD st.distances t none = some d ∧
      ∀ p, IsPathFrom g s t p → d ≤ calculatePathDistance g p)

/-- The well-formedness facts of a built graph that the Dijkstra proof
uses: duplicate-free key list and adjacency lists that only mention
keys. -/
structure GWF (g : Graph) : Prop where
  keysNodup : (jkeys g.topics).Nodup
  adjMem : ∀ u v, v ∈ adjOf g u → v ∈ jkeys g.topics
  adjSrc : ∀ u v, v ∈ adjOf g u → u ∈ jkeys g.topics

/-- The part of the Dijkstra invariant that is threaded through the
relaxation fold; `V` is the (fixed) visited set of the phase. -/
structure RInv (g : Graph) (s : String) (V : List String) (st : DState) : Prop where
  dkeys : jkeys st.distances = jkeys g.topics
  pkeys : jkeys st.previous = jkeys g.topics
  distS : dgetD st.distances s none = some 0
  nonneg : ∀ v q, dgetD st.distances v none = some q → 0 ≤ q
  sound : ∀ v q, dgetD st.distances v none = some q →
    ∃ p, IsPathFrom g s v p ∧ calculatePathDistance g p = q
  prevSome : ∀ v u, dgetD st.previous v none = some u →
    u ∈ V ∧ isEdge g u v ∧ ∃ du, dgetD st.distances u none = some du ∧
      dgetD st.distances v none = some (du + getEdgeWeight g u v)
  finToPrev : ∀ v q, dgetD st.distances v none = some q →
    v = s ∨ ∃ u, dgetD st.previous v none = some u

/-! ## Lemmas: JS set and map models -/

theorem contains_iff_mem {s : List String} {x : String} : s.contains x = true ↔ x ∈ s := by
  simp [List.contains, List.elem_iff]

theorem jget_cons {α : Type} (e : String × α) (rest : JSMap α) (k : String) :
    jget (e :: rest) k = if e.1 = k then some e.2 else jget rest k := by
  by_cases h : e.1 = k <;> simp [jget, h]

theorem mem_sadd {s : List String} {x y : String} : y ∈ sadd s x ↔ y ∈ s ∨ y = x := by
  unfold sadd
  split
  · next h =>
    rw [contains_iff_mem] at h
    constructor
    · exact Or.inl
    · rintro (hy | rfl) <;> [exact hy; exact h]
  · simp

theorem sadd_nodup {s : List String} {x : String} (h : s.Nodup) : (sadd s x).Nodup := by
  unfold sadd
  split
  · exact h
  · next hc =>
    rw [contains_iff_mem] at hc
    simpa [List.nodup_append] using ⟨h, hc⟩

theorem mem_jsSetOf {l : List String} {x : String} : x ∈ jsSetOf l ↔ x ∈ l := by
  suffices h : ∀ acc, x ∈ l.foldl sadd acc ↔ x ∈ acc ∨ x ∈ l by
    simpa [jsSetOf] using h []
  induction l with
  | nil => simp
  | cons a rest ih =>
    intro acc
    simp only [List.foldl_cons, ih, mem_sadd, List.mem_cons]
    tauto

theorem jsSetOf_nodup (l : List String) : (jsSetOf l).Nodup := by
  suffices h : ∀ acc, acc.Nodup → (l.foldl sadd acc).Nodup from h [] List.nodup_nil
  induction l with
  | nil => intro acc ha; simpa using ha
  | cons a rest ih =>
    intro acc ha
    exact ih _ (sadd_nodup ha)

theorem jget_jset_self {α : Type} (m : JSMap α) (k : String) (v : α) :
    jget (jset m k v) k = some v := by
  induction m with
  | nil => simp [jset, jget]
  | cons e rest ih =>
    by_cases h : e.1 = k
    · simp [jset, h, jget_cons]
    · simp [jset, h, jget_cons, ih]

theorem jget_jset_ne {α : Type} (m : JSMap α) {k k' : String} (v : α) (h : k' ≠ k) :
    jget (jset m k v) k' = jget m k' := by
  induction m with
  | nil => simp [jset, jget, Ne.symm h]
  | cons e rest ih =>
    by_cases he : e.1 = k
    · subst he
      simp [jset, jget_cons, Ne.symm h]
    · simp [jset, he, jget_cons, ih]

theorem jkeys_jset_of_mem {α : Type} (m : JSMap α) {k : String} (v : α)
    (h : k ∈ jkeys m) : jkeys (jset m k v) = jkeys m := by
  induction m with
  | nil => simp [jkeys] at h
  | cons e rest ih =>
    by_cases he : e.1 = k
    · simp [jset, he, jkeys]
    · simp only [jkeys, List.map_cons, List.mem_cons] at h
      rcases h with h | h
      · exact absurd h.symm he
      · simp only [jset, he, if_false, jkeys, List.map_cons, List.cons.injEq, true_and]
        exact ih h

theorem jkeys_jset_of_not_mem {α : Type} (m : JSMap α) {k : String} (v : α)
    (h : k ∉ jkeys m) : jkeys (jset m k v) = jkeys m ++ [k] := by
  induction m with
  | nil => simp [jset, jkeys]
  | cons e rest ih =>
    simp only [jkeys, List.map_cons, List.mem_cons] at h
    push_neg at h
    simp only [jset, Ne.symm h.1, if_false, jkeys, List.map_cons, List.cons_append,
      List.cons.injEq, true_and]
    exact ih h.2

theorem jget_eq_none_of_not_mem {α : Type} {m : JSMap α} {k : String}
    (h : k ∉ jkeys m) : jget m k = none := by
  induction m with
  | nil => simp [jget]
  | cons e rest ih =>
    simp only [jkeys, List.map_cons, List.mem_cons] at h
    push_neg at h
    simp only [jget_cons, Ne.symm h.1, if_false]
    exact ih h.2

theorem jget_isSome_of_mem {α : Type} {m : JSMap α} {k : String}
    (h : k ∈ jkeys m) : (jget m k).isSome := by
  induction m with
  | nil => simp [jkeys] at h
  | cons e rest ih =>
    by_cases he : e.1 = k
    · simp [jget_cons, he]
    · simp only [jkeys, List.map_cons, List.mem_cons] at h
      rcases h with h | h
      · exact absurd h.symm he
      · simp only [jget_cons, he, if_false]
        exact ih h

theorem jhas_iff_mem_jkeys {α : Type} {m : JSMap α} {k : String} :
    jhas m k = true ↔ k ∈ jkeys m := by
  constructor
  · intro h
    by_contra hk
    simp [jhas, jget_eq_none_of_not_mem hk] at h
  · intro h
    simpa [jhas] using jget_isSome_of_mem h

theorem jget_mem_values {α : Type} {m : JSMap α} {k : String} {v : α}
    (h : jget m k = some v) : (k, v) ∈ m := by
  induction m with
  | nil => simp [jget] at h
  | cons e rest ih =>
    by_cases he : e.1 = k
    · rw [jget_cons, if_pos he] at h
      have hv : e.2 = v := by injection h
      rcases e with ⟨k', v'⟩
      cases he
      cases hv
      exact List.mem_cons_self _ _
    · rw [jget_cons, if_neg he] at h
      exact List.mem_cons_of_mem _ (ih h)

/-! ## Lemmas: sorting -/

theorem mem_insertBy {α : Type} {le : α → α → Bool} {x a : α} {l : List α} :
    a ∈ insertBy le x l ↔ a = x ∨ a ∈ l := by
  induction l with
  | nil => simp [insertBy]
  | cons y ys ih =>
    unfold insertBy
    split
    · simp [or_comm, or_left_comm]
    · simp only [List.mem_cons, ih]
      tauto

theorem insertBy_perm {α : Type} (le : α → α → Bool) (x : α) (l : List α) :
    (insertBy le x l).Perm (x :: l) := by
  induction l with
  | nil => simp [insertBy]
  | cons y ys ih =>
    unfold insertBy
    split
    · exact List.Perm.refl _
    · exact (List.Perm.cons y ih).trans (List.Perm.swap x y ys)

theorem sortBy_perm {α : Type} (le : α → α → Bool) (l : List α) :
    (sortBy le l).Perm l := by
  induction l with
  | nil => exact List.Perm.refl _
  | cons x xs ih =>
    exact (insertBy_perm le x (sortBy le xs)).trans (List.Perm.cons x ih)

theorem mem_sortBy {α : Type} {le : α → α → Bool} {a : α} {l : List α} :
    a ∈ sortBy le l ↔ a ∈ l :=
  (sortBy_perm le l).mem_iff

theorem insertBy_pairwise {α : Type} {le : α → α → Bool}
    (htot : ∀ a b, le a b = true ∨ le b a = true)
    (htrans : ∀ a b c, le a b = true → le b c = true → le a c = true)
    (x : α) {l : List α} (h : l.Pairwise (fun a b => le a b = true)) :
    (insertBy le x l).Pairwise (fun a b => le a b = true) := by
  induction l with
  | nil => simp [insertBy]
  | cons y ys ih =>
    rcases List.pairwise_cons.mp h with ⟨hy, hys⟩
    unfold insertBy
    split
    · next hxy =>
      refine List.pairwise_cons.mpr ⟨?_, h⟩
      intro z hz
      rcases List.mem_cons.mp hz with rfl | hz
      · exact hxy
      · exact htrans x y z hxy (hy z hz)
    · next hxy =>
      refine List.pairwise_cons.mpr ⟨?_, ih hys⟩
      intro z hz
      rcases mem_insertBy.mp hz with rfl | hz
      · rcases htot z y with hzy | hyz
        · exact absurd hzy (by simpa using hxy)
        · exact hyz
      · exact hy z hz

theorem sortBy_pairwise {α : Type} {le : α → α → Bool}
    (htot : ∀ a b, le a b = true ∨ le b a = true)
    (htrans : ∀ a b c, le a b = true → le b c = true → le a c = true)
    (l : List α) : (sortBy le l).Pairwise (fun a b => le a b = true) := by
  induction l with
  | nil => simp [sortBy]
  | cons x xs ih => exact insertBy_pairwise htot htrans x ih

theorem qinfLe_total (a b : QInf) : qinfLe a b = true ∨ qinfLe b a = true := by
  rcases a with _ | a <;> rcases b with _ | b <;> simp [qinfLe, le_total]

theorem qinfLe_trans (a b c : QInf) (h1 : qinfLe a b = true) (h2 : qinfLe b c = true) :
    qinfLe a c = true := by
  rcases a with _ | a <;> rcases b with _ | b <;> rcases c with _ | c <;>
    simp_all [qinfLe]
  exact le_trans h1 h2

/-! ## Lemmas: similarity and edge weights -/

theorem length_jsSetOf_eq_card (l : List String) :
    (jsSetOf l).length = l.toFinset.card := by
  have hnd := jsSetOf_nodup l
  have hfs : (jsSetOf l).toFinset = l.toFinset := by
    ext x
    simp [List.mem_toFinset, mem_jsSetOf]
  rw [← List.toFinset_card_of_nodup hnd, hfs]

theorem calculateContentSimilarity_nonneg (t1 t2 : ITopicData) :
    0 ≤ calculateContentSimilarity t1 t2 := by
  simp only [calculateContentSimilarity]
  split
  · exact le_refl 0
  · positivity

theorem calculateContentSimilarity_le_one (t1 t2 : ITopicData) :
    calculateContentSimilarity t1 t2 ≤ 1 := by
  simp only [calculateContentSimilarity]
  split
  · exact zero_le_one
  · next hne =>
    push_neg at hne
    set w1 := extractWords (t1.name ++ " " ++ t1.content) with hw1
    set w2 := extractWords (t2.name ++ " " ++ t2.content) with hw2
    have hsub : (w1.filter (fun word => w2.contains word)).toFinset ⊆ (w1 ++ w2).toFinset := by
      intro x hx
      simp only [List.mem_toFinset, List.mem_filter] at hx
      simp [List.mem_toFinset, hx.1]
    have hcard := Finset.card_le_card hsub
    rw [length_jsSetOf_eq_card, length_jsSetOf_eq_card]
    have hupos : 0 < (w1 ++ w2).toFinset.card := by
      rcases List.length_pos_iff_exists_mem.mp (Nat.pos_of_ne_zero hne.1) with ⟨x, hx⟩
      exact Finset.card_pos.mpr ⟨x, by simp [List.mem_toFinset, hx]⟩
    rw [div_le_one (by exact_mod_cast hupos)]
    exact_mod_cast hcard

theorem calculateContentSimilarity_comm (t1 t2 : ITopicData) :
    calculateContentSimilarity t1 t2 = calculateContentSimilarity t2 t1 := by
  simp only [calculateContentSimilarity]
  set w1 := extractWords (t1.name ++ " " ++ t1.content) with hw1
  set w2 := extractWords (t2.name ++ " " ++ t2.content) with hw2
  by_cases h : w1.length = 0 ∨ w2.length = 0
  · rw [if_pos h, if_pos (Or.symm h)]
  · rw [if_neg h, if_neg (fun hc => h (Or.symm hc))]
    have hi : (w1.filter (fun word => w2.contains word)).toFinset
        = (w2.filter (fun word => w1.contains word)).toFinset := by
      ext x
      simp only [List.mem_toFinset, List.mem_filter, contains_iff_mem]
      tauto
    have hu : (w1 ++ w2).toFinset = (w2 ++ w1).toFinset := by
      ext x
      simp only [List.mem_toFinset, List.mem_append]
      tauto
    rw [length_jsSetOf_eq_card, length_jsSetOf_eq_card, length_jsSetOf_eq_card,
      length_jsSetOf_eq_card, hi, hu]

theorem edgeWeightOf_eq (a b : ITopicData) :
    edgeWeightOf a b = 1 + (1 - calculateContentSimilarity a b) * (1/2) := by
  unfold edgeWeightOf
  split <;> rfl

theorem edgeWeightOf_comm (a b : ITopicData) : edgeWeightOf a b = edgeWeightOf b a := by
  rw [edgeWeightOf_eq, edgeWeightOf_eq, calculateContentSimilarity_comm]

theorem one_le_edgeWeightOf (a b : ITopicData) : 1 ≤ edgeWeightOf a b := by
  rw [edgeWeightOf_eq]
  have := calculateContentSimilarity_le_one a b
  linarith

theorem edgeWeightOf_le (a b : ITopicData) : edgeWeightOf a b ≤ 3/2 := by
  rw [edgeWeightOf_eq]
  have := calculateContentSimilarity_nonneg a b
  linarith

theorem getEdgeWeight_nonneg (g : Graph) (u v : String) : 0 ≤ getEdgeWeight g u v := by
  unfold getEdgeWeight
  split
  · next a b _ _ => exact le_trans zero_le_one (one_le_edgeWeightOf a b)
  · exact le_refl 0

theorem getEdgeWeight_of_some {g : Graph} {u v : String} {a b : ITopicData}
    (hu : jget g.topics u = some a) (hv : jget g.topics v = some b) :
    getEdgeWeight g u v = edgeWeightOf a b := by
  unfold getEdgeWeight
  rw [hu, hv]

theorem one_le_getEdgeWeight {g : Graph} {u v : String}
    (hu : jhas g.topics u = true) (hv : jhas g.topics v = true) :
    1 ≤ getEdgeWeight g u v := by
  rcases Option.isSome_iff_exists.mp hu with ⟨a, ha⟩
  rcases Option.isSome_iff_exists.mp hv with ⟨b, hb⟩
  rw [getEdgeWeight_of_some ha hb]
  exact one_le_edgeWeightOf a b

theorem calculateContentSimilarity_of_equal_sets {a b : ITopicData}
    (hset : (extractWords (a.name ++ " " ++ a.content)).toFinset
      = (extractWords (b.name ++ " " ++ b.content)).toFinset)
    (hne : extractWords (a.name ++ " " ++ a.content) ≠ []) :
    calculateContentSimilarity a b = 1 := by
  simp only [calculateContentSimilarity]
  set w1 := extractWords (a.name ++ " " ++ a.content) with hw1
  set w2 := extractWords (b.name ++ " " ++ b.content) with hw2
  have hmem : ∀ x, x ∈ w1 ↔ x ∈ w2 := by
    intro x
    have := Finset.ext_iff.mp hset x
    simpa [List.mem_toFinset] using this
  have h2ne : w2 ≠ [] := by
    rcases List.exists_mem_of_ne_nil _ hne with ⟨x, hx⟩
    exact List.ne_nil_of_mem ((hmem x).mp hx)
  rw [if_neg (by simp [List.length_eq_zero, hne, h2ne])]
  have hfilter : w1.filter (fun word => w2.contains word) = w1 :=
    List.filter_eq_self.mpr (fun x hx => by
      rw [contains_iff_mem]
      exact (hmem x).mp hx)
  have huni : (w1 ++ w2).toFinset = w1.toFinset := by
    rw [List.toFinset_append, hset]
    exact Finset.union_self _
  rw [hfilter, length_jsSetOf_eq_card, length_jsSetOf_eq_card, huni]
  have hpos : 0 < w1.toFinset.card := by
    rcases List.exists_mem_of_ne_nil _ hne with ⟨x, hx⟩
    exact Finset.card_pos.mpr ⟨x, List.mem_toFinset.mpr hx⟩
  rw [div_self (by exact_mod_cast hpos.ne')]

theorem calculateContentSimilarity_of_disjoint {a b : ITopicData}
    (h : (∀ w ∈ extractWords (a.name ++ " " ++ a.content),
            w ∉ extractWords (b.name ++ " " ++ b.content))
      ∨ extractWords (a.name ++ " " ++ a.content) = []
      ∨ extractWords (b.name ++ " " ++ b.content) = []) :
    calculateContentSimilarity a b = 0 := by
  simp only [calculateContentSimilarity]
  set w1 := extractWords (a.name ++ " " ++ a.content) with hw1
  set w2 := extractWords (b.name ++ " " ++ b.content) with hw2
  by_cases hguard : w1.length = 0 ∨ w2.length = 0
  · rw [if_pos hguard]
  · rw [if_neg hguard]
    push_neg at hguard
    have hdisj : ∀ w ∈ w1, w ∉ w2 := by
      rcases h with h | h | h
      · exact h
      · exact absurd (List.length_eq_zero.mpr h) hguard.1
      · exact absurd (List.length_eq_zero.mpr h) hguard.2
    have hfilter : w1.filter (fun word => w2.contains word) = [] := by
      rw [List.filter_eq_nil_iff]
      intro x hx
      simpa [contains_iff_mem] using hdisj x hx
    rw [hfilter]
    simp [jsSetOf]

/-- C5 (claimed): within the graph, every edge weight lies in `[1, 3/2]`
and the weight function is symmetric. -/
theorem C5_edge_weight_bounds_and_symmetry (g : Graph) (u v : String)
    (hu : jhas g.topics u = true) (hv : jhas g.topics v = true) :
    1 ≤ getEdgeWeight g u v ∧ getEdgeWeight g u v ≤ 3/2 ∧
    getEdgeWeight g u v = getEdgeWeight g v u := by
  rcases Option.isSome_iff_exists.mp hu with ⟨a, ha⟩
  rcases Option.isSome_iff_exists.mp hv with ⟨b, hb⟩
  rw [getEdgeWeight_of_some ha hb, getEdgeWeight_of_some hb ha]
  exact ⟨one_le_edgeWeightOf a b, edgeWeightOf_le a b, edgeWeightOf_comm a b⟩

/-- Witness for C5 at a concrete pair of the sample graph. -/
theorem C5_edge_weight_bounds_and_symmetry_witness :
    1 ≤ getEdgeWeight exSampleG "root" "child1" ∧
    getEdgeWeight exSampleG "root" "child1" ≤ 3/2 ∧
    getEdgeWeight exSampleG "root" "child1" = getEdgeWeight exSampleG "child1" "root" :=
  C5_edge_weight_bounds_and_symmetry exSampleG "root" "child1" (by decide) (by decide)

/-- C6 (as claimed) is false: these two records' contents share all their
significant words (the sets are equal and nonempty) yet the weight is
`4/3`, not `1`, because the source extracts words from `name + " " +
content` and the names differ; and two records whose contents share all
(zero) significant words get weight `3/2`, not `1`. -/
theorem C6_counterexample :
    extractWords exShareContent1.content = extractWords exShareContent2.content ∧
    extractWords exShareContent1.content ≠ [] ∧
    edgeWeightOf exShareContent1 exShareContent2 = 4/3 ∧
    extractWords exNoWords1.content = extractWords exNoWords2.content ∧
    edgeWeightOf exNoWords1 exNoWords2 = 3/2 := by
  refine ⟨by decide, by decide, ?_, by decide, ?_⟩ <;> with_unfolding_all decide

/-- C6 (amended): with significant words extracted from `name + " " +
content`, equal nonempty word sets give weight `1`, and disjoint or empty
word sets give weight `3/2`. -/
theorem C6_extreme_weights (a b : ITopicData) :
    ((extractWords (a.name ++ " " ++ a.content)).toFinset
        = (extractWords (b.name ++ " " ++ b.content)).toFinset →
      extractWords (a.name ++ " " ++ a.content) ≠ [] →
      edgeWeightOf a b = 1) ∧
    ((∀ w ∈ extractWords (a.name ++ " " ++ a.content),
        w ∉ extractWords (b.name ++ " " ++ b.content))
      ∨ extractWords (a.name ++ " " ++ a.content) = []
      ∨ extractWords (b.name ++ " " ++ b.content) = [] →
      edgeWeightOf a b = 3/2) := by
  constructor
  · intro hset hne
    rw [edgeWeightOf_eq, calculateContentSimilarity_of_equal_sets hset hne]
    norm_num
  · intro h
    rw [edgeWeightOf_eq, calculateContentSimilarity_of_disjoint h]
    norm_num

/-- Witness for the amended C6: a shared-vocabulary pair gets weight `1`,
a disjoint-vocabulary pair gets weight `3/2`. -/
theorem C6_extreme_weights_witness :
    edgeWeightOf exEqualA exEqualB = 1 ∧ edgeWeightOf exDisjA exDisjB = 3/2 :=
  ⟨(C6_extreme_weights exEqualA exEqualB).1 (by decide) (by decide),
   (C6_extreme_weights exDisjA exDisjB).2 (Or.inl (by decide))⟩

/-! ## Lemmas: graph construction -/

theorem lastRecordOf_cons (t : ITopicData) (rest : List ITopicData) (id : String) :
    lastRecordOf (t :: rest) id =
      if t.id = id then some ((lastRecordOf rest id).getD t) else lastRecordOf rest id := by
  unfold lastRecordOf
  by_cases h : t.id = id
  · rw [List.filter_cons_of_pos (by simpa using h)]
    cases hrest : (rest.filter (fun r => r.id = id)) with
    | nil => simp [h, hrest]
    | cons a l =>
      rcases hlast : (a :: l).getLast? with _ | x
      · exact absurd (List.getLast?_eq_none_iff.mp hlast) (by simp)
      · simp [h, hrest, List.getLast?_cons_cons, hlast]
  · rw [List.filter_cons_of_neg (by simpa using h), if_neg h]

theorem foldl_register_topics (tps : List ITopicData) :
    ∀ (m : JSMap ITopicData) (id : String),
      jget (tps.foldl (fun m t => jset m t.id t) m) id =
        match lastRecordOf tps id with
        | some r => some r
        | none => jget m id := by
  induction tps with
  | nil => intro m id; simp [lastRecordOf]
  | cons t rest ih =>
    intro m id
    rw [List.foldl_cons, ih (jset m t.id t) id, lastRecordOf_cons]
    by_cases h : t.id = id
    · rw [if_pos h]
      cases hrest : lastRecordOf rest id with
      | some r => simp [hrest]
      | none =>
        subst h
        simp [hrest, jget_jset_self m t.id t]
    · rw [if_neg h]
      cases hrest : lastRecordOf rest id with
      | some r => simp [hrest]
      | none => simp [hrest, jget_jset_ne m t (fun hc => h hc.symm)]

theorem buildGraph_topics_eq (tps : List ITopicData) :
    (buildGraph tps).topics = tps.foldl (fun m t => jset m t.id t) [] := by
  unfold buildGraph
  have h2 : ∀ (l : List ITopicData) (g : Graph),
      (l.foldl (fun g t =>
        match t.parentTopicId with
        | some p =>
          if p ≠ "" ∧ jhas g.topics p then
            { g with adjacencyList := adjAdd (adjAdd g.adjacencyList p t.id) t.id p }
          else g
        | none => g) g).topics = g.topics := by
    intro l
    induction l with
    | nil => intro g; rfl
    | cons t rest ih =>
      intro g
      rw [List.foldl_cons, ih]
      rcases t.parentTopicId with _ | p
      · rfl
      · dsimp only
        split <;> rfl
  rw [h2]
  have h1 : ∀ (l : List ITopicData) (g : Graph),
      (l.foldl (fun g t => (⟨jset g.topics t.id t, jset g.adjacencyList t.id []⟩ : Graph)) g).topics
        = l.foldl (fun m t => jset m t.id t) g.topics := by
    intro l
    induction l with
    | nil => intro g; rfl
    | cons t rest ih => intro g; rw [List.foldl_cons, ih, List.foldl_cons]
  exact h1 tps ⟨[], []⟩

theorem buildGraph_jget_topics (tps : List ITopicData) (id : String) :
    jget (buildGraph tps).topics id = lastRecordOf tps id := by
  rw [buildGraph_topics_eq, foldl_register_topics]
  cases h : lastRecordOf tps id with
  | some r => rfl
  | none => simp [jget]

theorem lastRecordOf_id {tps : List ITopicData} {id : String} {r : ITopicData}
    (h : lastRecordOf tps id = some r) : r.id = id ∧ r ∈ tps := by
  have hm := List.mem_of_getLast?_eq_some h
  rw [List.mem_filter] at hm
  exact ⟨by simpa using hm.2, hm.1⟩

theorem buildGraph_record_id {tps : List ITopicData} {id : String} {r : ITopicData}
    (h : jget (buildGraph tps).topics id = some r) : r.id = id ∧ r ∈ tps := by
  rw [buildGraph_jget_topics] at h
  exact lastRecordOf_id h

theorem buildGraph_jhas_iff (tps : List ITopicData) (id : String) :
    jhas (buildGraph tps).topics id = true ↔ ∃ t ∈ tps, t.id = id := by
  rw [jhas, buildGraph_jget_topics, Option.isSome_iff_exists]
  constructor
  · rintro ⟨r, hr⟩
    rcases lastRecordOf_id hr with ⟨hid, hmem⟩
    exact ⟨r, hmem, hid⟩
  · rintro ⟨t, hmem, hid⟩
    rcases hl : lastRecordOf tps id with _ | r
    · exfalso
      unfold lastRecordOf at hl
      rw [List.getLast?_eq_none_iff] at hl
      have : t ∈ tps.filter (fun r => r.id = id) := List.mem_filter.mpr ⟨hmem, by simpa using hid⟩
      rw [hl] at this
      simp at this
    · exact ⟨r, rfl⟩

theorem mem_jkeys_of_jget_some {α : Type} {m : JSMap α} {k : String} {v : α}
    (h : jget m k = some v) : k ∈ jkeys m := by
  have := jget_mem_values h
  exact List.mem_map.mpr ⟨(k, v), this, rfl⟩

theorem adjAdd_keys (m : JSMap (List String)) (k x : String) :
    jkeys (adjAdd m k x) = jkeys m := by
  unfold adjAdd
  cases h : jget m k with
  | none => rfl
  | some l => exact jkeys_jset_of_mem m _ (mem_jkeys_of_jget_some h)

/-- The second `buildGraph` loop never touches the `topics` map. -/
theorem phase2_topics_constant (l : List ITopicData) (g : Graph) :
    (l.foldl (fun g t =>
      match t.parentTopicId with
      | some p =>
        if p ≠ "" ∧ jhas g.topics p then
          { g with adjacencyList := adjAdd (adjAdd g.adjacencyList p t.id) t.id p }
        else g
      | none => g) g).topics = g.topics := by
  induction l generalizing g with
  | nil => rfl
  | cons t rest ih =>
    rw [List.foldl_cons, ih]
    rcases t.parentTopicId with _ | p
    · rfl
    · dsimp only
      split <;> rfl

theorem foldl_register_keys_nodup (tps : List ITopicData) :
    ∀ m : JSMap ITopicData, (jkeys m).Nodup →
      (jkeys (tps.foldl (fun m t => jset m t.id t) m)).Nodup := by
  induction tps with
  | nil => intro m h; simpa using h
  | cons t rest ih =>
    intro m h
    rw [List.foldl_cons]
    refine ih _ ?_
    by_cases hm : t.id ∈ jkeys m
    · rwa [jkeys_jset_of_mem m _ hm]
    · rw [jkeys_jset_of_not_mem m _ hm]
      simpa [List.nodup_append] using ⟨h, hm⟩

theorem buildGraph_keys_nodup (tps : List ITopicData) :
    (jkeys (buildGraph tps).topics).Nodup := by
  rw [buildGraph_topics_eq]
  exact foldl_register_keys_nodup tps [] (by simp [jkeys])

theorem buildGraph_adj_keys (tps : List ITopicData) :
    jkeys (buildGraph tps).adjacencyList = jkeys (buildGraph tps).topics := by
  unfold buildGraph
  have h1 : ∀ (l : List ITopicData) (g : Graph), jkeys g.topics = jkeys g.adjacencyList →
      jkeys (l.foldl (fun g t =>
        (⟨jset g.topics t.id t, jset g.adjacencyList t.id []⟩ : Graph)) g).topics
      = jkeys (l.foldl (fun g t =>
        (⟨jset g.topics t.id t, jset g.adjacencyList t.id []⟩ : Graph)) g).adjacencyList := by
    intro l
    induction l with
    | nil => intro g h; exact h
    | cons t rest ih =>
      intro g h
      rw [List.foldl_cons]
      refine ih _ ?_
      by_cases hm : t.id ∈ jkeys g.topics
      · rw [jkeys_jset_of_mem _ _ hm, jkeys_jset_of_mem _ _ (h ▸ hm)]
        exact h
      · rw [jkeys_jset_of_not_mem _ _ hm, jkeys_jset_of_not_mem _ _ (fun hc => hm (h ▸ hc))]
        rw [h]
  have h2 : ∀ (l : List ITopicData) (g : Graph),
      jkeys (l.foldl (fun g t =>
        match t.parentTopicId with
        | some p =>
          if p ≠ "" ∧ jhas g.topics p then
            { g with adjacencyList := adjAdd (adjAdd g.adjacencyList p t.id) t.id p }
          else g
        | none => g) g).adjacencyList = jkeys g.adjacencyList := by
    intro l
    induction l with
    | nil => intro; rfl
    | cons t rest ih =>
      intro g
      rw [List.foldl_cons, ih]
      rcases t.parentTopicId with _ | p
      · rfl
      · dsimp only
        split
        · simp [adjAdd_keys]
        · rfl
  rw [phase2_topics_constant, h2]
  exact (h1 tps ⟨[], []⟩ rfl).symm

theorem adjAdd_mem {m : JSMap (List String)} {k x u v : String}
    (h : v ∈ (jget (adjAdd m k x) u).getD []) :
    v ∈ (jget m u).getD [] ∨ v = x := by
  unfold adjAdd at h
  cases hk : jget m k with
  | none => rw [hk] at h; exact Or.inl h
  | some l =>
    rw [hk] at h
    by_cases hu : u = k
    · subst hu
      rw [jget_jset_self] at h
      simp only [Option.getD_some] at h
      rcases mem_sadd.mp h with hv | hv
      · rw [hk]
        exact Or.inl hv
      · exact Or.inr hv
    · rw [jget_jset_ne _ _ hu] at h
      exact Or.inl h

/-- Every id in any adjacency list of a built graph is a topic key. -/
theorem buildGraph_adj_values (tps : List ITopicData) (u v : String)
    (h : v ∈ adjOf (buildGraph tps) u) : jhas (buildGraph tps).topics v = true := by
  revert h
  unfold adjOf buildGraph
  have h1 : ∀ (l : List ITopicData) (g : Graph),
      (∀ u' l', jget g.adjacencyList u' = some l' → l' = []) →
      (∀ u' l', jget (l.foldl (fun g t =>
        (⟨jset g.topics t.id t, jset g.adjacencyList t.id []⟩ : Graph)) g).adjacencyList u'
          = some l' → l' = []) := by
    intro l
    induction l with
    | nil => intro g h; exact h
    | cons t rest ih =>
      intro g h
      rw [List.foldl_cons]
      refine ih _ ?_
      intro u' l' hget
      by_cases hu : u' = t.id
      · subst hu
        rw [jget_jset_self] at hget
        injection hget with hget
        exact hget.symm
      · rw [jget_jset_ne _ _ hu] at hget
        exact h u' l' hget
  set T := (buildGraph tps).topics with hT
  have h2 : ∀ (l : List ITopicData) (g : Graph), (∀ t ∈ l, t ∈ tps) → g.topics = T →
      (∀ u' v', v' ∈ (jget g.adjacencyList u').getD [] → jhas T v' = true) →
      (∀ u' v', v' ∈ (jget (l.foldl (fun g t =>
        match t.parentTopicId with
        | some p =>
          if p ≠ "" ∧ jhas g.topics p then
            { g with adjacencyList := adjAdd (adjAdd g.adjacencyList p t.id) t.id p }
          else g
        | none => g) g).adjacencyList u').getD [] → jhas T v' = true) := by
    intro l
    induction l with
    | nil => intro g _ _ h; exact h
    | cons t rest ih =>
      intro g hsub hgt h
      rw [List.foldl_cons]
      refine ih _ (fun x hx => hsub x (List.mem_cons_of_mem _ hx)) ?_ ?_
      · rcases t.parentTopicId with _ | p
        · exact hgt
        · dsimp only
          split <;> exact hgt
      · rcases htp : t.parentTopicId with _ | p
        · exact h
        · dsimp only
          split
          · next hcond =>
            intro u' v' hv'
            rcases adjAdd_mem hv' with hv' | rfl
            · rcases adjAdd_mem hv' with hv' | rfl
              · exact h u' v' hv'
              · rw [jhas_iff_mem_jkeys, hT, buildGraph_topics_eq]
                have hmem : t ∈ tps := hsub t (List.mem_cons_self _ _)
                have hj := (buildGraph_jhas_iff tps t.id).mpr ⟨t, hmem, rfl⟩
                rw [jhas_iff_mem_jkeys, buildGraph_topics_eq] at hj
                exact hj
            · rw [← hgt]
              exact hcond.2
          · exact h
  intro h
  refine h2 tps _ (fun _ hx => hx) ?_ ?_ u v h
  · change ((List.foldl _ (⟨[], []⟩ : Graph) tps)).topics = T
    rw [hT]
    conv_rhs => rw [show (buildGraph tps).topics
      = (tps.foldl (fun (g : Graph) t =>
          match t.parentTopicId with
          | some p =>
            if p ≠ "" ∧ jhas g.topics p then
              { g with adjacencyList := adjAdd (adjAdd g.adjacencyList p t.id) t.id p }
            else g
          | none => g)
          (tps.foldl (fun (g : Graph) t =>
            (⟨jset g.topics t.id t, jset g.adjacencyList t.id []⟩ : Graph)) ⟨[], []⟩)).topics
        from rfl]
    rw [phase2_topics_constant]
  · intro u' v' hv'
    have hval := h1 tps ⟨[], []⟩ (by intro u' l' h'; simp [jget] at h') u'
    cases hg : jget ((tps.foldl (fun (g : Graph) t =>
        (⟨jset g.topics t.id t, jset g.adjacencyList t.id []⟩ : Graph)) ⟨[], []⟩)).adjacencyList u' with
    | none => rw [hg] at hv'; simp at hv'
    | some l' =>
      rw [hg] at hv'
      rw [hval l' hg] at hv'
      simp at hv'

theorem buildGraph_adjOf_source {tps : List ITopicData} {u v : String}
    (h : v ∈ adjOf (buildGraph tps) u) : jhas (buildGraph tps).topics u = true := by
  unfold adjOf at h
  cases hg : jget (buildGraph tps).adjacencyList u with
  | none => rw [hg] at h; simp at h
  | some l =>
    rw [jhas_iff_mem_jkeys, ← buildGraph_adj_keys]
    exact mem_jkeys_of_jget_some hg

theorem jget_of_mem_nodup {α : Type} {m : JSMap α} {k : String} {v : α}
    (hnd : (jkeys m).Nodup) (h : (k, v) ∈ m) : jget m k = some v := by
  induction m with
  | nil => simp at h
  | cons e rest ih =>
    rcases List.mem_cons.mp h with rfl | h
    · simp [jget_cons]
    · have hk : k ∈ jkeys rest := List.mem_map.mpr ⟨(k, v), h, rfl⟩
      have hnd' : e.1 ∉ jkeys rest ∧ (jkeys rest).Nodup := by
        rw [jkeys, List.map_cons, List.nodup_cons] at hnd
        exact hnd
      have hne : e.1 ≠ k := fun hc => hnd'.1 (hc ▸ hk)
      rw [jget_cons, if_neg hne]
      exact ih hnd'.2 h

/-! ## C2: the parent-chain walks on a cyclic input never halt -/

theorem exCycle_parentStep1 : parentStep exCycleG "topic1" = some "topic2" := by decide

theorem exCycle_parentStep2 : parentStep exCycleG "topic2" = some "topic1" := by decide

theorem exCycle_ancIter (n : Nat) :
    ancIter exCycleG "topic1" n = some "topic1" ∨ ancIter exCycleG "topic1" n = some "topic2" := by
  induction n with
  | zero => exact Or.inl rfl
  | succ n ih =>
    rcases ih with h | h
    · right
      simp [ancIter, h, exCycle_parentStep1]
    · left
      simp [ancIter, h, exCycle_parentStep2]

theorem exCycle_getAncestorsF (fuel : Nat) :
    ∀ c acc, (c = "topic1" ∨ c = "topic2") →
      getAncestorsF exCycleG fuel (some c) acc = none := by
  induction fuel with
  | zero =>
    intro c acc hc
    have hne : c ≠ "" := by rcases hc with rfl | rfl <;> decide
    simp [getAncestorsF, truthy, hne]
  | succ fuel ih =>
    intro c acc hc
    have hne : c ≠ "" := by rcases hc with rfl | rfl <;> decide
    rcases hc with rfl | rfl
    · simp only [getAncestorsF, if_neg (by decide : ¬("topic1" : String) = ""),
        exCycle_parentStep1]
      exact ih _ _ (Or.inr rfl)
    · simp only [getAncestorsF, if_neg (by decide : ¬("topic2" : String) = ""),
        exCycle_parentStep2]
      exact ih _ _ (Or.inl rfl)

theorem exCycle_getTopicDepthF (fuel : Nat) :
    ∀ c d, (c = "topic1" ∨ c = "topic2") → getTopicDepthF exCycleG fuel c d = none := by
  induction fuel with
  | zero => intro c d _; rfl
  | succ fuel ih =>
    intro c d hc
    rcases hc with rfl | rfl
    · simp only [getTopicDepthF, if_neg (by decide : ¬("topic1" : String) = ""),
        exCycle_parentStep1]
      rw [if_neg (by decide : ¬("topic2" : String) = "")]
      exact ih _ _ (Or.inr rfl)
    · simp only [getTopicDepthF, if_neg (by decide : ¬("topic2" : String) = ""),
        exCycle_parentStep2]
      rw [if_neg (by decide : ¬("topic1" : String) = "")]
      exact ih _ _ (Or.inl rfl)

/-- C2 is false of the code: on the two-topic parent cycle of the
repository's own test data, the `getAncestors` walk never reaches a falsy
`currentId` (the source has no revisit guard), so `getAncestors`,
`getTopicDepth`, `findClosestCommonAncestor` and `getGraphStats` all loop
forever: with any amount of fuel they still have not halted. -/
theorem C2_parent_cycle_divergence :
    ¬ ancestorsWalkHalts exCycleG "topic1" ∧
    (∀ fuel, getAncestorsF exCycleG fuel (some "topic1") [] = none) ∧
    (∀ fuel, getTopicDepthF exCycleG fuel "topic1" 0 = none) ∧
    (∀ fuel, findClosestCommonAncestorF exCycleG fuel "topic1" "topic2" = none) ∧
    (∀ fuel, getGraphStatsF exCycleG fuel = none) := by
  refine ⟨?_, ?_, ?_, ?_, ?_⟩
  · rintro ⟨n, hn⟩
    rcases exCycle_ancIter n with h | h <;> rw [h] at hn <;> simp [truthy] at hn
  · intro fuel
    exact exCycle_getAncestorsF fuel _ _ (Or.inl rfl)
  · intro fuel
    exact exCycle_getTopicDepthF fuel _ _ (Or.inl rfl)
  · intro fuel
    rw [findClosestCommonAncestorF,
      if_neg (by decide :
        ¬¬(jhas exCycleG.topics "topic1" = true ∧ jhas exCycleG.topics "topic2" = true)),
      exCycle_getAncestorsF fuel _ _ (Or.inl rfl)]
  · intro fuel
    rw [getGraphStatsF]
    have hkeys : jkeys exCycleG.topics = ["topic1", "topic2"] := by decide
    rw [hkeys]
    rw [List.mapM_cons, exCycle_getTopicDepthF fuel _ _ (Or.inl rfl)]
    rfl

/-! ## C7: unknown-id queries return null or empty -/

/-- C7: passing an id that is not a key of the `topics` map to any of the
query operations yields `null` (`none`) or an empty list; every such call
takes the early-return guard, so no lookup can fail. -/
theorem C7_unknown_id_queries (g : Graph) (x other : String) (fuel maxDepth : Nat)
    (maxDistance : ℚ) (hx : jhas g.topics x = false) :
    findShortestPath g x other = none ∧ findShortestPath g other x = none ∧
    findAllPaths g x other maxDepth = [] ∧ findAllPaths g other x maxDepth = [] ∧
    findClosestCommonAncestorF g fuel x other = some none ∧
    findClosestCommonAncestorF g fuel other x = some none ∧
    findTopicsWithinDistance g x maxDistance = [] := by
  refine ⟨?_, ?_, ?_, ?_, ?_, ?_, ?_⟩
  · rw [findShortestPath, if_pos (by simp [hx])]
  · rw [findShortestPath, if_pos (by simp [hx])]
  · rw [findAllPaths, if_pos (by simp [hx])]
  · rw [findAllPaths, if_pos (by simp [hx])]
  · rw [findClosestCommonAncestorF, if_pos (by simp [hx])]
  · rw [findClosestCommonAncestorF, if_pos (by simp [hx])]
  · rw [findTopicsWithinDistance, if_pos (by simp [hx])]

/-- Witness for C7 at the sample graph and an unknown id. -/
theorem C7_unknown_id_queries_witness :
    findShortestPath exSampleG "nope" "root" = none ∧
    findShortestPath exSampleG "root" "nope" = none ∧
    findAllPaths exSampleG "nope" "root" 10 = [] ∧
    findAllPaths exSampleG "root" "nope" 10 = [] ∧
    findClosestCommonAncestorF exSampleG 10 "nope" "root" = some none ∧
    findClosestCommonAncestorF exSampleG 10 "root" "nope" = some none ∧
    findTopicsWithinDistance exSampleG "nope" 5 = [] :=
  C7_unknown_id_queries exSampleG "nope" "root" 10 10 5 (by decide)

/-! ## C10: statistics of the empty graph -/

/-- C10: on the empty record list the statistics report zero nodes, zero
edges and no roots, but the maximum depth is the maximum of an empty
collection — negative infinity (`⊥`), not `0`. -/
theorem C10_empty_graph_stats (fuel : Nat) :
    getGraphStatsF (buildGraph []) fuel
      = some { nodeCount := 0, edgeCount := 0, maxDepth := ⊥, rootNodes := [] } ∧
    ∀ st, getGraphStatsF (buildGraph []) fuel = some st → st.maxDepth ≠ 0 := by
  constructor
  · show getGraphStatsF ⟨[], []⟩ fuel = _
    rw [getGraphStatsF]
    simp only [List.map_nil, List.sum_nil, Nat.cast_zero, zero_div, List.filter_nil, jkeys,
      List.mapM_nil]
    rfl
  · intro st hst
    have h1 : getGraphStatsF (buildGraph []) fuel
        = some { nodeCount := 0, edgeCount := 0, maxDepth := ⊥, rootNodes := [] } := by
      show getGraphStatsF ⟨[], []⟩ fuel = _
      rw [getGraphStatsF]
      simp only [List.map_nil, List.sum_nil, Nat.cast_zero, zero_div, List.filter_nil, jkeys,
        List.mapM_nil]
      rfl
    rw [h1] at hst
    injection hst with hst
    rw [← hst]
    decide

/-- Witness for C10 at fuel `0`. -/
theorem C10_empty_graph_stats_witness :
    getGraphStatsF (buildGraph []) 0
      = some { nodeCount := 0, edgeCount := 0, maxDepth := ⊥, rootNodes := [] } ∧
    ({ nodeCount := 0, edgeCount := 0, maxDepth := ⊥, rootNodes := [] } : GraphStats).maxDepth
      ≠ 0 :=
  ⟨(C10_empty_graph_stats 0).1, (C10_empty_graph_stats 0).2 _ (C10_empty_graph_stats 0).1⟩

/-! ## C3: which ids are listed as roots -/

theorem getGraphStatsF_rootNodes {g : Graph} {fuel : Nat} {st : GraphStats}
    (h : getGraphStatsF g fuel = some st) :
    st.rootNodes = ((g.topics.map (fun e => e.2)).filter
      (fun topic => !truthy topic.parentTopicId)).map (fun topic => topic.id) := by
  rw [getGraphStatsF] at h
  rcases Option.map_eq_some'.mp h with ⟨depths, _, rfl⟩
  rfl

/-- C3 as claimed is false: the single record of `exDangling` has the
unresolved parent reference `"zzz"`, so the claim counts it as a root, but
the source tests only whether `parentTopicId` is falsy and returns no
roots at all. -/
theorem C3_rootNodes_counterexample :
    lastRecordOf exDangling "a"
      = some { id := "a", name := "xx", content := "yy", parentTopicId := some "zzz" } ∧
    jhas exDanglingG.topics "zzz" = false ∧
    (getGraphStatsF exDanglingG 10).map GraphStats.rootNodes = some [] := by
  refine ⟨by decide, by decide, ?_⟩
  with_unfolding_all decide

/-- C3 (amended): an id is listed as a root exactly when the record stored
for it has a falsy (`undefined` or empty) `parentTopicId`; a record whose
parent reference does not resolve is not counted as a root. -/
theorem C3_rootNodes_falsy_parent (tps : List ITopicData) (fuel : Nat) (st : GraphStats)
    (h : getGraphStatsF (buildGraph tps) fuel = some st) (id : String) :
    id ∈ st.rootNodes ↔
      ∃ r, lastRecordOf tps id = some r ∧ truthy r.parentTopicId = false := by
  rw [getGraphStatsF_rootNodes h]
  constructor
  · intro hid
    rcases List.mem_map.mp hid with ⟨r, hr, hrid⟩
    rcases List.mem_filter.mp hr with ⟨hrv, hroot⟩
    rcases List.mem_map.mp hrv with ⟨e, hkr, hr'⟩
    have hget : jget (buildGraph tps).topics e.1 = some e.2 :=
      jget_of_mem_nodup (buildGraph_keys_nodup tps) hkr
    have hkid : e.2.id = e.1 := (buildGraph_record_id hget).1
    rw [buildGraph_jget_topics] at hget
    refine ⟨r, ?_, by simpa using hroot⟩
    rw [← hrid, ← hr', hkid]
    exact hget
  · rintro ⟨r, hr, hroot⟩
    have hget : jget (buildGraph tps).topics id = some r := by
      rw [buildGraph_jget_topics]
      exact hr
    have hmem := jget_mem_values hget
    have hid : r.id = id := (lastRecordOf_id hr).1
    exact List.mem_map.mpr ⟨r,
      List.mem_filter.mpr ⟨List.mem_map.mpr ⟨(id, r), hmem, rfl⟩, by simp [hroot]⟩, hid⟩

/-- Witness for the amended C3 at the dangling-parent input. -/
theorem C3_rootNodes_falsy_parent_witness :
    "a" ∈ ({ nodeCount := 1, edgeCount := 0, maxDepth := (1 : Nat), rootNodes := [] }
        : GraphStats).rootNodes ↔
      ∃ r, lastRecordOf exDangling "a" = some r ∧ truthy r.parentTopicId = false :=
  C3_rootNodes_falsy_parent exDangling 10 _ (by with_unfolding_all decide) "a"

/-! ## C8 and C9: properties of `findAllPaths` -/

theorem dfs_sound (g : Graph) (endId : String) (maxDepth : Nat) :
    ∀ fuel,
      (∀ currentId currentPath visited acc,
        (∀ x, x ∈ visited ↔ x ∈ currentPath) →
        currentPath.Nodup → currentId ∉ currentPath →
        (∀ p ∈ acc, DfsGood maxDepth p) →
        ∀ p ∈ dfsAllPaths g endId maxDepth fuel currentId currentPath visited acc,
          DfsGood maxDepth p) ∧
      (∀ ns currentPath' visited' acc,
        (∀ x, x ∈ visited' ↔ x ∈ currentPath') →
        currentPath'.Nodup →
        (∀ p ∈ acc, DfsGood maxDepth p) →
        ∀ p ∈ dfsNeighbors g endId maxDepth fuel currentPath' visited' acc ns,
          DfsGood maxDepth p) := by
  intro fuel
  induction fuel with
  | zero =>
    constructor
    · intro currentId currentPath visited acc _ _ _ hacc p hp
      rw [dfsAllPaths] at hp
      exact hacc p hp
    · intro ns
      induction ns with
      | nil =>
        intro currentPath' visited' acc _ _ hacc p hp
        rw [dfsNeighbors] at hp
        exact hacc p hp
      | cons n rest ih =>
        intro currentPath' visited' acc hvis hnd hacc p hp
        rw [dfsNeighbors] at hp
        refine ih currentPath' visited' _ hvis hnd ?_ p hp
        dsimp only
        split
        · exact hacc
        · intro q hq
          rw [dfsAllPaths] at hq
          exact hacc q hq
  | succ fuel ih =>
    have hA : ∀ currentId currentPath visited acc,
        (∀ x, x ∈ visited ↔ x ∈ currentPath) →
        currentPath.Nodup → currentId ∉ currentPath →
        (∀ p ∈ acc, DfsGood maxDepth p) →
        ∀ p ∈ dfsAllPaths g endId maxDepth (fuel + 1) currentId currentPath visited acc,
          DfsGood maxDepth p := by
      intro currentId currentPath visited acc hvis hnd hcur hacc p hp
      rw [dfsAllPaths] at hp
      by_cases hlen : currentPath.length > maxDepth
      · rw [if_pos hlen] at hp
        exact hacc p hp
      · rw [if_neg hlen] at hp
        dsimp only at hp
        by_cases hend : currentId = endId
        · rw [if_pos hend] at hp
          rcases List.mem_append.mp hp with hp | hp
          · exact hacc p hp
          · rcases List.mem_singleton.mp hp with rfl
            constructor
            · simpa [List.nodup_append] using ⟨hnd, hcur⟩
            · rw [List.length_append, List.length_singleton]
              omega
        · rw [if_neg hend] at hp
          refine ih.2 (adjOf g currentId) (currentPath ++ [currentId])
            (sadd visited currentId) acc ?_ ?_ hacc p hp
          · intro x
            rw [mem_sadd, hvis x, List.mem_append, List.mem_singleton]
          · simpa [List.nodup_append] using ⟨hnd, hcur⟩
    refine ⟨hA, ?_⟩
    intro ns
    induction ns with
    | nil =>
      intro currentPath' visited' acc _ _ hacc p hp
      rw [dfsNeighbors] at hp
      exact hacc p hp
    | cons n rest ihns =>
      intro currentPath' visited' acc hvis hnd hacc p hp
      rw [dfsNeighbors] at hp
      refine ihns currentPath' visited' _ hvis hnd ?_ p hp
      dsimp only
      split
      · exact hacc
      · next hnvis =>
        refine hA n currentPath' visited' acc hvis hnd ?_ hacc
        intro hc
        exact hnvis (contains_iff_mem.mpr ((hvis n).mpr hc))

theorem calculatePathDistance_nil (g : Graph) : calculatePathDistance g [] = 0 := rfl

theorem calculatePathDistance_single (g : Graph) (x : String) :
    calculatePathDistance g [x] = 0 := rfl

/-- C8: every result of `findAllPaths` is a simple path of at most
`maxDepth` hops whose reported distance is the sum of the edge weights
along that path, and the result list is sorted ascending by distance. -/
theorem C8_findAllPaths_simple_bounded_sorted (g : Graph) (startId endId : String)
    (maxDepth : Nat) :
    (∀ r ∈ findAllPaths g startId endId maxDepth,
      r.path.Nodup ∧ r.path.length ≤ maxDepth + 1 ∧
      r.distance = some (calculatePathDistance g r.path)) ∧
    (findAllPaths g startId endId maxDepth).Pairwise
      (fun a b => qinfLe a.distance b.distance = true) := by
  constructor
  · intro r hr
    rw [findAllPaths] at hr
    split at hr
    · simp at hr
    · rw [mem_sortBy] at hr
      rcases List.mem_map.mp hr with ⟨p, hp, rfl⟩
      have hgood : DfsGood maxDepth p := by
        refine (dfs_sound g endId maxDepth (maxDepth + 2)).1 startId [] [] [] ?_ ?_ ?_ ?_ p hp
        · simp
        · exact List.nodup_nil
        · simp
        · simp
      exact ⟨hgood.1, hgood.2, rfl⟩
  · rw [findAllPaths]
    split
    · simp
    · exact sortBy_pairwise
        (fun (a b : ShortestPathOut) => qinfLe_total a.distance b.distance)
        (fun (a b c : ShortestPathOut) => qinfLe_trans a.distance b.distance c.distance) _

/-- Witness for C8 at the sample graph: the unique grandchild-to-grandchild
path is simple, within the hop bound, and carries its own summed
distance. -/
theorem C8_findAllPaths_simple_bounded_sorted_witness :
    (∀ r ∈ findAllPaths exSampleG "grandchild1" "grandchild2" 10,
      r.path.Nodup ∧ r.path.length ≤ 10 + 1 ∧
      r.distance = some (calculatePathDistance exSampleG r.path)) ∧
    (findAllPaths exSampleG "grandchild1" "grandchild2" 10).Pairwise
      (fun a b => qinfLe a.distance b.distance = true) :=
  C8_findAllPaths_simple_bounded_sorted exSampleG "grandchild1" "grandchild2" 10

/-- C9: `findAllPaths` from a known id to itself returns exactly the
single-node path with distance `0` (the DFS records the trivial path and
does not expand it further). -/
theorem C9_findAllPaths_self (g : Graph) (x : String) (maxDepth : Nat)
    (hx : jhas g.topics x = true) :
    ∃ r, jget g.topics x = some r ∧
      findAllPaths g x x maxDepth
        = [{ path := [x], distance := some 0, topics := [r] }] := by
  rcases Option.isSome_iff_exists.mp hx with ⟨r, hr⟩
  refine ⟨r, hr, ?_⟩
  rw [findAllPaths, if_neg (by simp [hx])]
  show sortBy _ (List.map _ (dfsAllPaths g x maxDepth (maxDepth + 1 + 1) x [] [] [])) = _
  rw [dfsAllPaths]
  rw [if_neg (by simp)]
  dsimp only
  rw [if_pos rfl]
  simp only [List.nil_append, List.map_cons, List.map_nil, calculatePathDistance_single,
    List.filterMap, hr]
  rfl

/-- Witness for C9 at the sample graph. -/
theorem C9_findAllPaths_self_witness :
    ∃ r, jget exSampleG.topics "root" = some r ∧
      findAllPaths exSampleG "root" "root" 10
        = [{ path := ["root"], distance := some 0, topics := [r] }] :=
  C9_findAllPaths_self exSampleG "root" 10 (by decide)
/-! ## C4: properties of `findTopicsWithinDistance` -/

theorem mem_jset {α : Type} {m : JSMap α} {k : String} {v : α} {e : String × α}
    (h : e ∈ jset m k v) : e ∈ m ∨ e = (k, v) := by
  induction m with
  | nil => simpa [jset] using h
  | cons f rest ih =>
    unfold jset at h
    split at h
    · rcases List.mem_cons.mp h with rfl | h
      · exact Or.inr rfl
      · exact Or.inl (List.mem_cons_of_mem _ h)
    · rcases List.mem_cons.mp h with rfl | h
      · exact Or.inl (List.mem_cons_self _ _)
      · rcases ih h with h | h
        · exact Or.inl (List.mem_cons_of_mem _ h)
        · exact Or.inr h

theorem calculatePathDistance_cons_cons (g : Graph) (a b : String) (rest : List String) :
    calculatePathDistance g (a :: b :: rest)
      = getEdgeWeight g a b + calculatePathDistance g (b :: rest) := rfl

theorem calculatePathDistance_append_single (g : Graph) :
    ∀ (p : List String) (y n : String), p.getLast? = some y →
      calculatePathDistance g (p ++ [n]) = calculatePathDistance g p + getEdgeWeight g y n := by
  intro p
  induction p with
  | nil => intro y n h; simp at h
  | cons a rest ih =>
    intro y n h
    cases rest with
    | nil =>
      rcases Option.some_inj.mp (by simpa using h) with rfl
      show calculatePathDistance g [a, n] = _
      rw [calculatePathDistance_cons_cons, calculatePathDistance_single,
        calculatePathDistance_single]
      ring
    | cons b rest' =>
      rw [List.getLast?_cons_cons] at h
      have l1 : (a :: b :: rest') ++ [n] = a :: b :: (rest' ++ [n]) := by simp
      have l2 : (b :: rest') ++ [n] = b :: (rest' ++ [n]) := by simp
      rw [l1, calculatePathDistance_cons_cons, ← l2, ih y n h,
        calculatePathDistance_cons_cons]
      ring

theorem IsPathFrom_single (g : Graph) (x : String) : IsPathFrom g x x [x] := by
  refine ⟨rfl, rfl, ?_⟩
  simp

theorem IsPathFrom_append {g : Graph} {s y n : String} {p : List String}
    (h : IsPathFrom g s y p) (he : isEdge g y n) : IsPathFrom g s n (p ++ [n]) := by
  rcases h with ⟨hhead, hlast, hchain⟩
  have hne : p ≠ [] := by
    intro hc
    rw [hc] at hhead
    simp at hhead
  refine ⟨?_, ?_, ?_⟩
  · rwa [List.head?_append_of_ne_nil _ hne]
  · rw [List.getLast?_concat]
  · rw [List.chain'_append]
    refine ⟨hchain, List.chain'_singleton _, ?_⟩
    intro x hx y' hy'
    rcases Option.some_inj.mp (hlast ▸ hx) with rfl
    rcases Option.some_inj.mp (by simpa using hy') with rfl
    exact he

/-- Soundness of every distance recorded by the queue loop: it is the
total weight of an actual path from the start. -/
theorem withinDistanceLoop_sound (g : Graph) (startId : String) (maxDistance : ℚ) :
    ∀ (fuel : Nat) (queue : List PathNode) (distances : JSMap ℚ) (visited : List String),
      (∀ e ∈ queue, ∃ p, IsPathFrom g startId e.topicId p
        ∧ calculatePathDistance g p = e.distance) →
      (∀ e ∈ distances, ∃ p, IsPathFrom g startId e.1 p
        ∧ calculatePathDistance g p = e.2) →
      ∀ e ∈ withinDistanceLoop g maxDistance fuel queue distances visited,
        ∃ p, IsPathFrom g startId e.1 p ∧ calculatePathDistance g p = e.2 := by
  intro fuel
  induction fuel with
  | zero =>
    intro queue distances visited _ hd e he
    rw [withinDistanceLoop] at he
    exact hd e he
  | succ fuel ih =>
    intro queue distances visited hq hd e he
    rcases queue with _ | ⟨current, rest⟩
    · rw [withinDistanceLoop] at he
      exact hd e he
    · rw [withinDistanceLoop] at he
      dsimp only at he
      by_cases hvis : visited.contains current.topicId
      · rw [if_pos hvis] at he
        exact ih rest distances visited (fun f hf => hq f (List.mem_cons_of_mem _ hf)) hd e he
      · rw [if_neg hvis] at he
        by_cases hcut : current.distance ≥ maxDistance
        · rw [if_pos hcut] at he
          exact ih rest distances _ (fun f hf => hq f (List.mem_cons_of_mem _ hf)) hd e he
        · rw [if_neg hcut] at he
          rcases hq current (List.mem_cons_self _ _) with ⟨pc, hpc, hpcd⟩
          have hstep : ∀ (ns : List String) (acc : List PathNode × JSMap ℚ),
              (∀ n ∈ ns, n ∈ adjOf g current.topicId) →
              (∀ f ∈ acc.1, ∃ p, IsPathFrom g startId f.topicId p
                ∧ calculatePathDistance g p = f.distance) →
              (∀ f ∈ acc.2, ∃ p, IsPathFrom g startId f.1 p
                ∧ calculatePathDistance g p = f.2) →
              (∀ f ∈ (ns.foldl (fun (acc : List PathNode × JSMap ℚ) neighborId =>
                if (sadd visited current.topicId).contains neighborId then acc
                else
                  let newDistance := current.distance
                    + getEdgeWeight g current.topicId neighborId
                  let better :=
                    match jget acc.2 neighborId with
                    | none => true
                    | some d => decide (newDistance < d)
                  if decide (newDistance ≤ maxDistance) && better then
                    (acc.1 ++ [{ topicId := neighborId, distance := newDistance
                                 parent := some current.topicId }],
                     jset acc.2 neighborId newDistance)
                  else acc) acc).1,
                ∃ p, IsPathFrom g startId f.topicId p
                  ∧ calculatePathDistance g p = f.distance) ∧
              (∀ f ∈ (ns.foldl (fun (acc : List PathNode × JSMap ℚ) neighborId =>
                if (sadd visited current.topicId).contains neighborId then acc
                else
                  let newDistance := current.distance
                    + getEdgeWeight g current.topicId neighborId
                  let better :=
                    match jget acc.2 neighborId with
                    | none => true
                    | some d => decide (newDistance < d)
                  if decide (newDistance ≤ maxDistance) && better then
                    (acc.1 ++ [{ topicId := neighborId, distance := newDistance
                                 parent := some current.topicId }],
                     jset acc.2 neighborId newDistance)
                  else acc) acc).2,
                ∃ p, IsPathFrom g startId f.1 p
                  ∧ calculatePathDistance g p = f.2) := by
            intro ns
            induction ns with
            | nil => intro acc _ h1 h2; exact ⟨h1, h2⟩
            | cons n ns' ihns =>
              intro acc hns h1 h2
              rw [List.foldl_cons]
              refine ihns _ (fun x hx => hns x (List.mem_cons_of_mem _ hx)) ?_ ?_
              · dsimp only
                split
                · exact h1
                · split
                  · intro f hf
                    rcases List.mem_append.mp hf with hf | hf
                    · exact h1 f hf
                    · rcases List.mem_singleton.mp hf with rfl
                      refine ⟨pc ++ [n], IsPathFrom_append hpc
                        (hns n (List.mem_cons_self _ _)), ?_⟩
                      rw [calculatePathDistance_append_single g pc current.topicId n hpc.2.1,
                        hpcd]
                  · exact h1
              · dsimp only
                split
                · exact h2
                · split
                  · intro f hf
                    rcases mem_jset hf with hf | rfl
                    · exact h2 f hf
                    · refine ⟨pc ++ [n], IsPathFrom_append hpc
                        (hns n (List.mem_cons_self _ _)), ?_⟩
                      rw [calculatePathDistance_append_single g pc current.topicId n hpc.2.1,
                        hpcd]
                  · exact h2
          have hall := hstep (adjOf g current.topicId)
            (rest, distances) (fun x hx => hx)
            (fun f hf => hq f (List.mem_cons_of_mem _ hf)) hd
          exact ih _ _ _ hall.1 hall.2 e he

theorem chain'_of_pathChainB {g : Graph} :
    ∀ {p : List String}, pathChainB g p = true → List.Chain' (isEdge g) p := by
  intro p
  match p with
  | [] => intro _; simp
  | [x] => intro _; simp
  | a :: b :: rest =>
    intro h
    rw [pathChainB, Bool.and_eq_true] at h
    rw [List.chain'_cons]
    exact ⟨contains_iff_mem.mp h.1, chain'_of_pathChainB h.2⟩

/-- C4 (amended): every entry returned by `findTopicsWithinDistance`
carries no parent tag, lies within `maxDistance`, and records the total
weight of an actual path from the start to that node (so the node is
reachable), and the list is sorted ascending by distance.  The returned
set may omit reachable nodes within `maxDistance`, and recorded distances
need not be minimal (see the counterexample). -/
theorem C4_within_distance_sound (g : Graph) (topicId : String) (maxDistance : ℚ) :
    (∀ e ∈ findTopicsWithinDistance g topicId maxDistance,
      e.parent = none ∧ e.distance ≤ maxDistance ∧
      ∃ p, IsPathFrom g topicId e.topicId p ∧ calculatePathDistance g p = e.distance) ∧
    (findTopicsWithinDistance g topicId maxDistance).Pairwise
      (fun a b => decide (a.distance ≤ b.distance) = true) := by
  constructor
  · intro e he
    rw [findTopicsWithinDistance] at he
    split at he
    · simp at he
    · rw [mem_sortBy, List.mem_filter] at he
      rcases he with ⟨hmap, hle⟩
      rcases List.mem_map.mp hmap with ⟨f, hf, rfl⟩
      refine ⟨rfl, by simpa using hle, ?_⟩
      refine withinDistanceLoop_sound g topicId maxDistance _ _ _ _ ?_ ?_ f hf
      · intro q hq
        rcases List.mem_singleton.mp hq with rfl
        exact ⟨[topicId], IsPathFrom_single g topicId, calculatePathDistance_single g topicId⟩
      · intro q hq
        have : q = (topicId, 0) := by
          rcases mem_jset hq with hc | hc
          · simp at hc
          · exact hc
        rcases this with rfl
        exact ⟨[topicId], IsPathFrom_single g topicId, calculatePathDistance_single g topicId⟩
  · rw [findTopicsWithinDistance]
    split
    · simp
    · refine sortBy_pairwise ?_ ?_ _
      · intro a b
        rcases le_total a.distance b.distance with h | h
        · left; simpa using h
        · right; simpa using h
      · intro a b c h1 h2
        simp only [decide_eq_true_eq] at h1 h2 ⊢
        exact le_trans h1 h2

/-- Witness for the amended C4 at the diamond graph. -/
theorem C4_within_distance_sound_witness :
    (({ topicId := "v", distance := 4, parent := none } : PathNode).parent = none ∧
     ({ topicId := "v", distance := 4, parent := none } : PathNode).distance ≤ 10 ∧
     ∃ p, IsPathFrom exFifoG "s" "v" p ∧
       calculatePathDistance exFifoG p
         = ({ topicId := "v", distance := 4, parent := none } : PathNode).distance) ∧
    (findTopicsWithinDistance exFifoG "s" 10).Pairwise
      (fun a b => decide (a.distance ≤ b.distance) = true) :=
  ⟨(C4_within_distance_sound exFifoG "s" 10).1 _ (by with_unfolding_all decide),
   (C4_within_distance_sound exFifoG "s" 10).2⟩

/-- C4 as claimed is false on the diamond graph: the node `v` is reachable
from `s` with cumulative weight `3`, yet `findTopicsWithinDistance(s, 3)`
omits it; with a larger radius it reports `v` at the non-minimal distance
`4`; and no returned entry carries a search-tree parent tag (the entry for
`b`, reached from `s`, has `parent = none`). -/
theorem C4_within_distance_counterexample :
    IsPathFrom exFifoG "s" "v" ["s", "b", "u", "v"] ∧
    calculatePathDistance exFifoG ["s", "b", "u", "v"] = 3 ∧
    "v" ∉ (findTopicsWithinDistance exFifoG "s" 3).map PathNode.topicId ∧
    { topicId := "b", distance := 1, parent := none } ∈ findTopicsWithinDistance exFifoG "s" 3 ∧
    { topicId := "v", distance := 4, parent := none }
      ∈ findTopicsWithinDistance exFifoG "s" 10 := by
  refine ⟨⟨rfl, rfl, chain'_of_pathChainB (by decide)⟩, ?_, ?_, ?_, ?_⟩ <;>
    with_unfolding_all decide

/-! ## Lemmas: comparisons on possibly-infinite distances -/

theorem qinfLt_some_some {a b : ℚ} : qinfLt (some a) (some b) = true ↔ a < b := by
  simp [qinfLt]

theorem qinfLe_some_some {a b : ℚ} : qinfLe (some a) (some b) = true ↔ a ≤ b := by
  simp [qinfLe]

theorem qinfLe_none_right (d : QInf) : qinfLe d none = true := by
  cases d <;> rfl

theorem qinfLe_refl (d : QInf) : qinfLe d d = true := by
  cases d <;> simp [qinfLe]

theorem qinfLt_none_left (d : QInf) : qinfLt none d = false := rfl

theorem qinfLe_of_not_lt {a b : QInf} (h : qinfLt a b = false) : qinfLe b a = true := by
  cases a <;> cases b <;> simp_all [qinfLt, qinfLe]

theorem qinfLe_of_lt {a b : QInf} (h : qinfLt a b = true) : qinfLe a b = true := by
  cases a <;> cases b <;> simp_all [qinfLt, qinfLe]
  exact le_of_lt h

theorem qinfLe_some_dest {d : QInf} {b : ℚ} (h : qinfLe d (some b) = true) :
    ∃ a, d = some a ∧ a ≤ b := by
  cases d with
  | none => simp [qinfLe] at h
  | some a => exact ⟨a, rfl, qinfLe_some_some.mp h⟩

theorem qinfLe_mono_right {d : QInf} {a b : ℚ} (hab : a ≤ b)
    (h : qinfLe d (some a) = true) : qinfLe d (some b) = true := by
  rcases qinfLe_some_dest h with ⟨x, rfl, hx⟩
  exact qinfLe_some_some.mpr (le_trans hx hab)

theorem qinfAdd_some (a w : ℚ) : qinfAdd (some a) w = some (a + w) := rfl

theorem qinfLt_d_none {d : QInf} (h : qinfLt d none = false) : d = none := by
  cases d with
  | none => rfl
  | some a => simp [qinfLt] at h

/-! ## Lemmas: filter lengths -/

theorem length_filter_mono {α : Type} {P Q : α → Bool} :
    ∀ {l : List α}, (∀ x ∈ l, P x = true → Q x = true) →
      (l.filter P).length ≤ (l.filter Q).length := by
  intro l
  induction l with
  | nil => intro _; simp
  | cons x rest ih =>
    intro h
    have hrest := ih (fun y hy => h y (List.mem_cons_of_mem _ hy))
    by_cases hp : P x = true
    · rw [List.filter_cons_of_pos hp, List.filter_cons_of_pos (h x (List.mem_cons_self _ _) hp)]
      simpa using hrest
    · rw [List.filter_cons_of_neg (by simpa using hp)]
      by_cases hq : Q x = true
      · rw [List.filter_cons_of_pos hq]
        simp only [List.length_cons]
        omega
      · rw [List.filter_cons_of_neg (by simpa using hq)]
        exact hrest

theorem length_filter_strict {α : Type} {P Q : α → Bool} :
    ∀ {l : List α}, (∀ x ∈ l, P x = true → Q x = true) →
      ∀ {u}, u ∈ l → Q u = true → P u = false →
      (l.filter P).length < (l.filter Q).length := by
  intro l
  induction l with
  | nil => intro _ u hu; simp at hu
  | cons x rest ih =>
    intro h u hu hqu hpu
    have hmono := length_filter_mono (fun y hy => h y (List.mem_cons_of_mem _ hy))
    rcases List.mem_cons.mp hu with rfl | hu
    · rw [List.filter_cons_of_neg (by simp [hpu]), List.filter_cons_of_pos hqu]
      simp only [List.length_cons]
      omega
    · have hrest := ih (fun y hy => h y (List.mem_cons_of_mem _ hy)) hu hqu hpu
      by_cases hp : P x = true
      · rw [List.filter_cons_of_pos hp, List.filter_cons_of_pos (h x (List.mem_cons_self _ _) hp)]
        simpa using hrest
      · rw [List.filter_cons_of_neg (by simpa using hp)]
        by_cases hq : Q x = true
        · rw [List.filter_cons_of_pos hq]
          simp only [List.length_cons]
          omega
        · rw [List.filter_cons_of_neg (by simpa using hq)]
          exact hrest

/-! ## Lemmas: Dijkstra initialization -/

theorem mem_foldl_sadd : ∀ (l acc : List String) (x : String),
    x ∈ l.foldl sadd acc ↔ x ∈ acc ∨ x ∈ l := by
  intro l
  induction l with
  | nil => simp
  | cons a rest ih =>
    intro acc x
    rw [List.foldl_cons, ih, mem_sadd, List.mem_cons]
    tauto

theorem foldl_sadd_nodup : ∀ (l acc : List String), acc.Nodup → (l.foldl sadd acc).Nodup := by
  intro l
  induction l with
  | nil => intro acc h; simpa using h
  | cons a rest ih => intro acc h; exact ih _ (sadd_nodup h)

theorem initFold_spec (startId : String) :
    ∀ (l : List String) (st : DState),
      (l.foldl (fun st topicId =>
        { distances := jset st.distances topicId (if topicId = startId then some 0 else none)
          previous := jset st.previous topicId none
          visited := st.visited
          unvisited := sadd st.unvisited topicId }) st).visited = st.visited ∧
      (l.foldl (fun st topicId =>
        { distances := jset st.distances topicId (if topicId = startId then some 0 else none)
          previous := jset st.previous topicId none
          visited := st.visited
          unvisited := sadd st.unvisited topicId }) st).unvisited
        = l.foldl sadd st.unvisited ∧
      (∀ v, jget (l.foldl (fun st topicId =>
        { distances := jset st.distances topicId (if topicId = startId then some 0 else none)
          previous := jset st.previous topicId none
          visited := st.visited
          unvisited := sadd st.unvisited topicId }) st).distances v
        = if v ∈ l then some (if v = startId then some 0 else none)
          else jget st.distances v) ∧
      (∀ v, jget (l.foldl (fun st topicId =>
        { distances := jset st.distances topicId (if topicId = startId then some 0 else none)
          previous := jset st.previous topicId none
          visited := st.visited
          unvisited := sadd st.unvisited topicId }) st).previous v
        = if v ∈ l then some none else jget st.previous v) ∧
      (l.Nodup → (∀ k ∈ l, k ∉ jkeys st.distances) →
        jkeys (l.foldl (fun st topicId =>
        { distances := jset st.distances topicId (if topicId = startId then some 0 else none)
          previous := jset st.previous topicId none
          visited := st.visited
          unvisited := sadd st.unvisited topicId }) st).distances
        = jkeys st.distances ++ l) ∧
      (l.Nodup → (∀ k ∈ l, k ∉ jkeys st.previous) →
        jkeys (l.foldl (fun st topicId =>
        { distances := jset st.distances topicId (if topicId = startId then some 0 else none)
          previous := jset st.previous topicId none
          visited := st.visited
          unvisited := sadd st.unvisited topicId }) st).previous
        = jkeys st.previous ++ l) := by
  intro l
  induction l with
  | nil =>
    intro st
    refine ⟨rfl, rfl, by simp, by simp, by simp, by simp⟩
  | cons k rest ih =>
    intro st
    rw [List.foldl_cons]
    rcases ih { distances := jset st.distances k (if k = startId then some 0 else none)
                previous := jset st.previous k none
                visited := st.visited
                unvisited := sadd st.unvisited k } with ⟨h1, h2, h3, h4, h5, h6⟩
    refine ⟨h1, by rw [h2, List.foldl_cons], ?_, ?_, ?_, ?_⟩
    · intro v
      rw [h3 v]
      by_cases hv : v ∈ rest
      · rw [if_pos hv, if_pos (List.mem_cons_of_mem _ hv)]
      · rw [if_neg hv]
        by_cases hvk : v = k
        · subst hvk
          rw [if_pos (List.mem_cons_self _ _), jget_jset_self]
        · rw [jget_jset_ne _ _ hvk, if_neg (by simp [List.mem_cons, hvk, hv])]
    · intro v
      rw [h4 v]
      by_cases hv : v ∈ rest
      · rw [if_pos hv, if_pos (List.mem_cons_of_mem _ hv)]
      · rw [if_neg hv]
        by_cases hvk : v = k
        · subst hvk
          rw [if_pos (List.mem_cons_self _ _), jget_jset_self]
        · rw [jget_jset_ne _ _ hvk, if_neg (by simp [List.mem_cons, hvk, hv])]
    · intro hnd hnew
      rcases List.nodup_cons.mp hnd with ⟨hk, hrest⟩
      rw [h5 hrest ?_, jkeys_jset_of_not_mem _ _ (hnew k (List.mem_cons_self _ _))]
      · simp
      · intro x hx
        rw [jkeys_jset_of_not_mem _ _ (hnew k (List.mem_cons_self _ _))]
        simp only [List.mem_append, List.mem_singleton]
        push_neg
        exact ⟨hnew x (List.mem_cons_of_mem _ hx), fun hc => hk (hc ▸ hx)⟩
    · intro hnd hnew
      rcases List.nodup_cons.mp hnd with ⟨hk, hrest⟩
      rw [h6 hrest ?_, jkeys_jset_of_not_mem _ _ (hnew k (List.mem_cons_self _ _))]
      · simp
      · intro x hx
        rw [jkeys_jset_of_not_mem _ _ (hnew k (List.mem_cons_self _ _))]
        simp only [List.mem_append, List.mem_singleton]
        push_neg
        exact ⟨hnew x (List.mem_cons_of_mem _ hx), fun hc => hk (hc ▸ hx)⟩

theorem buildGraph_GWF (tps : List ITopicData) : GWF (buildGraph tps) := by
  refine ⟨buildGraph_keys_nodup tps, ?_, ?_⟩
  · intro u v hv
    have := buildGraph_adj_values tps u v hv
    rwa [jhas_iff_mem_jkeys] at this
  · intro u v hv
    have := buildGraph_adjOf_source hv
    rwa [jhas_iff_mem_jkeys] at this

theorem initDState_visited (g : Graph) (startId : String) :
    (initDState g startId).visited = [] :=
  (initFold_spec startId (jkeys g.topics) ⟨[], [], [], []⟩).1

theorem initDState_unvisited_mem (g : Graph) (startId : String) (x : String) :
    x ∈ (initDState g startId).unvisited ↔ x ∈ jkeys g.topics := by
  rw [show (initDState g startId).unvisited = (jkeys g.topics).foldl sadd [] from
    (initFold_spec startId (jkeys g.topics) ⟨[], [], [], []⟩).2.1]
  rw [mem_foldl_sadd]
  simp

theorem initDState_dist (g : Graph) (startId v : String) :
    dgetD (initDState g startId).distances v none
      = if v ∈ jkeys g.topics then (if v = startId then some 0 else none) else none := by
  have h : jget (initDState g startId).distances v
      = if v ∈ jkeys g.topics then some (if v = startId then some 0 else none)
        else jget ([] : JSMap QInf) v :=
    (initFold_spec startId (jkeys g.topics) ⟨[], [], [], []⟩).2.2.1 v
  rw [dgetD, h]
  by_cases hv : v ∈ jkeys g.topics
  · rw [if_pos hv, if_pos hv]
    rfl
  · rw [if_neg hv, if_neg hv]
    rfl

theorem initDState_prev (g : Graph) (startId v : String) :
    dgetD (initDState g startId).previous v none = none := by
  have h : jget (initDState g startId).previous v
      = if v ∈ jkeys g.topics then some none else jget ([] : JSMap (Option String)) v :=
    (initFold_spec startId (jkeys g.topics) ⟨[], [], [], []⟩).2.2.2.1 v
  rw [dgetD, h]
  by_cases hv : v ∈ jkeys g.topics
  · rw [if_pos hv]
    rfl
  · rw [if_neg hv]
    rfl

theorem initDState_DInv (g : Graph) (s t : String) (W : GWF g)
    (hs : s ∈ jkeys g.topics) (ht : t ∈ jkeys g.topics) :
    DInv g s t (initDState g s) := by
  have hvis := initDState_visited g s
  have hdk : jkeys (initDState g s).distances = jkeys g.topics := by
    have := (initFold_spec s (jkeys g.topics) ⟨[], [], [], []⟩).2.2.2.2.1
      W.keysNodup (by intro k _; simp [jkeys])
    simpa [jkeys] using this
  have hpk : jkeys (initDState g s).previous = jkeys g.topics := by
    have := (initFold_spec s (jkeys g.topics) ⟨[], [], [], []⟩).2.2.2.2.2
      W.keysNodup (by intro k _; simp [jkeys])
    simpa [jkeys] using this
  have hdist : ∀ v, dgetD (initDState g s).distances v none
      = if v ∈ jkeys g.topics then (if v = s then some 0 else none) else none :=
    initDState_dist g s
  refine ⟨hdk, hpk, ?_, ?_, ?_, ?_, ?_, ?_, ?_, ?_, ?_, ?_, ?_, ?_⟩
  · rw [show (initDState g s).unvisited = (jkeys g.topics).foldl sadd [] from
      (initFold_spec s (jkeys g.topics) ⟨[], [], [], []⟩).2.1]
    exact foldl_sadd_nodup _ _ List.nodup_nil
  · intro v
    rw [hvis, initDState_unvisited_mem g s v]
    simp
  · intro v hv
    rw [hvis] at hv
    simp at hv
  · rwa [initDState_unvisited_mem g s t]
  · rw [hdist s, if_pos hs, if_pos rfl]
  · intro v q hq
    rw [hdist v] at hq
    by_cases hv : v ∈ jkeys g.topics
    · rw [if_pos hv] at hq
      by_cases hvs : v = s
      · rw [if_pos hvs] at hq
        injection hq with hq
        rw [← hq]
      · rw [if_neg hvs] at hq
        exact absurd hq (by simp)
    · rw [if_neg hv] at hq
      exact absurd hq (by simp)
  · intro v q hq
    rw [hdist v] at hq
    by_cases hv : v ∈ jkeys g.topics
    · rw [if_pos hv] at hq
      by_cases hvs : v = s
      · subst hvs
        rw [if_pos rfl] at hq
        injection hq with hq
        exact ⟨[v], IsPathFrom_single g v, by rw [calculatePathDistance_single, hq]⟩
      · rw [if_neg hvs] at hq
        exact absurd hq (by simp)
    · rw [if_neg hv] at hq
      exact absurd hq (by simp)
  · intro v u hu
    rw [initDState_prev g s v] at hu
    exact absurd hu (by simp)
  · intro v q hq
    rw [hdist v] at hq
    by_cases hv : v ∈ jkeys g.topics
    · rw [if_pos hv] at hq
      by_cases hvs : v = s
      · exact Or.inl hvs
      · rw [if_neg hvs] at hq
        exact absurd hq (by simp)
    · rw [if_neg hv] at hq
      exact absurd hq (by simp)
  · intro u hu
    rw [hvis] at hu
    simp at hu
  · intro u hu
    rw [hvis] at hu
    simp at hu
  · intro u hu
    rw [hvis] at hu
    simp at hu

/-! ## Lemmas: minimum selection -/

theorem qinfLt_true_some {a b : QInf} (h : qinfLt a b = true) : ∃ q, a = some q := by
  cases a with
  | none => simp [qinfLt] at h
  | some q => exact ⟨q, rfl⟩

theorem scanMin_go (dist : JSMap QInf) :
    ∀ (l : List String) (cur : Option String) (m : QInf),
      ((cur = none ∧ m = none) ∨
        (∃ c0 q0, cur = some c0 ∧ m = some q0 ∧ dgetD dist c0 none = some q0)) →
      (scanMin dist l cur m = none → cur = none ∧ ∀ x ∈ l, dgetD dist x none = none) ∧
      (∀ c, scanMin dist l cur m = some c →
        ∃ q, dgetD dist c none = some q ∧ qinfLe (some q) m = true ∧
          (cur = some c ∨ c ∈ l) ∧ ∀ x ∈ l, qinfLe (some q) (dgetD dist x none) = true) := by
  intro l
  induction l with
  | nil =>
    intro cur m hinv
    constructor
    · intro h
      exact ⟨by simpa [scanMin] using h, by simp⟩
    · intro c h
      rw [scanMin] at h
      rcases hinv with ⟨rfl, _⟩ | ⟨c0, q0, rfl, rfl, hd⟩
      · simp at h
      · injection h with h
        subst h
      
        exact ⟨q0, hd, qinfLe_refl _, Or.inl rfl, by simp⟩
  | cons x rest ih =>
    intro cur m hinv
    rw [scanMin]
    by_cases hlt : qinfLt (dgetD dist x none) m = true
    · rw [if_pos hlt]
      rcases qinfLt_true_some hlt with ⟨dx, hdx⟩
      have hinv' : ((some x : Option String) = none ∧ dgetD dist x none = none) ∨
          (∃ c0 q0, (some x : Option String) = some c0 ∧ dgetD dist x none = some q0 ∧
            dgetD dist c0 none = some q0) :=
        Or.inr ⟨x, dx, rfl, hdx, hdx⟩
      rcases ih (some x) (dgetD dist x none) hinv' with ⟨ihn, ihs⟩
      constructor
      · intro h
        rcases ihn h with ⟨hc, _⟩
        simp at hc
      · intro c h
        rcases ihs c h with ⟨q, hq, hle, hc, hall⟩
        have hleq : qinfLe (some q) m = true := by
          rcases qinfLe_some_dest (hdx ▸ hle) with ⟨a, ha, hqa⟩
          have hdm : qinfLe (some dx) m = true := qinfLe_of_lt (hdx ▸ hlt)
          injection ha with ha
          subst ha
          rcases m with _ | mq
          · exact qinfLe_none_right _
          · exact qinfLe_some_some.mpr
              (le_trans hqa (qinfLe_some_some.mp hdm))
        refine ⟨q, hq, hleq, ?_, ?_⟩
        · rcases hc with hc | hc
          · injection hc with hc
            subst hc
            exact Or.inr (List.mem_cons_self _ _)
          · exact Or.inr (List.mem_cons_of_mem _ hc)
        · intro y hy
          rcases List.mem_cons.mp hy with rfl | hy
          · rw [hdx]
            rcases qinfLe_some_dest (hdx ▸ hle) with ⟨a, ha, hqa⟩
            injection ha with ha
            subst ha
            exact qinfLe_some_some.mpr hqa
          · exact hall y hy
    · rw [if_neg hlt]
      rw [Bool.not_eq_true] at hlt
      rcases ih cur m hinv with ⟨ihn, ihs⟩
      constructor
      · intro h
        rcases ihn h with ⟨hcur, hall⟩
        refine ⟨hcur, ?_⟩
        intro y hy
        rcases List.mem_cons.mp hy with rfl | hy
        · have hm : m = none := by
            rcases hinv with ⟨_, hm⟩ | ⟨c0, q0, hc0, _, _⟩
            · exact hm
            · rw [hcur] at hc0
              simp at hc0
          rw [hm] at hlt
          exact qinfLt_d_none hlt
        · exact hall y hy
      · intro c h
        rcases ihs c h with ⟨q, hq, hle, hc, hall⟩
        refine ⟨q, hq, hle, ?_, ?_⟩
        · rcases hc with hc | hc
          · exact Or.inl hc
          · exact Or.inr (List.mem_cons_of_mem _ hc)
        · intro y hy
          rcases List.mem_cons.mp hy with rfl | hy
          · exact qinfLe_trans _ m _ hle (qinfLe_of_not_lt hlt)
          · exact hall y hy

theorem scanMin_eq_none {dist : JSMap QInf} {l : List String}
    (h : scanMin dist l none none = none) : ∀ x ∈ l, dgetD dist x none = none :=
  ((scanMin_go dist l none none (Or.inl ⟨rfl, rfl⟩)).1 h).2

theorem scanMin_eq_some {dist : JSMap QInf} {l : List String} {c : String}
    (h : scanMin dist l none none = some c) :
    c ∈ l ∧ ∃ q, dgetD dist c none = some q ∧
      ∀ x ∈ l, qinfLe (some q) (dgetD dist x none) = true := by
  rcases (scanMin_go dist l none none (Or.inl ⟨rfl, rfl⟩)).2 c h with ⟨q, hq, _, hc, hall⟩
  rcases hc with hc | hc
  · simp at hc
  · exact ⟨hc, q, hq, hall⟩

/-! ## Lemmas: the relaxation fold -/

theorem relaxOne_cases (g : Graph) (c : String) (st : DState) (n : String) :
    relaxOne g c st n = st ∨
    (st.visited.contains n = false ∧
     qinfLt (qinfAdd (dgetD st.distances c none) (getEdgeWeight g c n))
       (dgetD st.distances n none) = true ∧
     relaxOne g c st n = { st with
       distances := jset st.distances n
         (qinfAdd (dgetD st.distances c none) (getEdgeWeight g c n))
       previous := jset st.previous n (some c) }) := by
  unfold relaxOne
  by_cases hvis : st.visited.contains n
  · rw [if_pos hvis]
    exact Or.inl rfl
  · rw [if_neg hvis]
    by_cases hlt : qinfLt (qinfAdd (dgetD st.distances c none) (getEdgeWeight g c n))
        (dgetD st.distances n none) = true
    · rw [if_pos hlt]
      exact Or.inr ⟨by simpa using hvis, hlt, rfl⟩
    · rw [if_neg hlt]
      exact Or.inl rfl

theorem relaxOne_visited (g : Graph) (c : String) (st : DState) (n : String) :
    (relaxOne g c st n).visited = st.visited := by
  rcases relaxOne_cases g c st n with h | ⟨_, _, h⟩ <;> rw [h]

theorem relaxOne_unvisited (g : Graph) (c : String) (st : DState) (n : String) :
    (relaxOne g c st n).unvisited = st.unvisited := by
  rcases relaxOne_cases g c st n with h | ⟨_, _, h⟩ <;> rw [h]

theorem relaxFold_visited (g : Graph) (c : String) :
    ∀ (ns : List String) (st : DState),
      (ns.foldl (relaxOne g c) st).visited = st.visited := by
  intro ns
  induction ns with
  | nil => intro st; rfl
  | cons n rest ih =>
    intro st
    rw [List.foldl_cons, ih, relaxOne_visited]

theorem relaxFold_unvisited (g : Graph) (c : String) :
    ∀ (ns : List String) (st : DState),
      (ns.foldl (relaxOne g c) st).unvisited = st.unvisited := by
  intro ns
  induction ns with
  | nil => intro st; rfl
  | cons n rest ih =>
    intro st
    rw [List.foldl_cons, ih, relaxOne_unvisited]

theorem relaxOne_dist_frozen {g : Graph} {c : String} {st : DState} {n v : String}
    (hv : v ∈ st.visited) :
    dgetD (relaxOne g c st n).distances v none = dgetD st.distances v none := by
  rcases relaxOne_cases g c st n with h | ⟨hnv, _, h⟩
  · rw [h]
  · rw [h]
    have hne : v ≠ n := by
      intro hc
      rw [← contains_iff_mem, hc] at hv
      rw [hv] at hnv
      exact absurd hnv (by simp)
    show (jget (jset st.distances n _) v).getD none = _
    rw [jget_jset_ne _ _ hne]
    rfl

theorem relaxFold_dist_frozen {g : Graph} {c : String} :
    ∀ {ns : List String} {st : DState} {v : String}, v ∈ st.visited →
      dgetD ((ns.foldl (relaxOne g c) st)).distances v none = dgetD st.distances v none := by
  intro ns
  induction ns with
  | nil => intro st v _; rfl
  | cons n rest ih =>
    intro st v hv
    rw [List.foldl_cons, ih (by rwa [relaxOne_visited]), relaxOne_dist_frozen hv]

theorem relaxOne_dist_le (g : Graph) (c : String) (st : DState) (n v : String) :
    qinfLe (dgetD (relaxOne g c st n).distances v none) (dgetD st.distances v none)
      = true := by
  rcases relaxOne_cases g c st n with h | ⟨_, hlt, h⟩
  · rw [h]
    exact qinfLe_refl _
  · rw [h]
    by_cases hvn : v = n
    · subst hvn
      show qinfLe ((jget (jset st.distances v _) v).getD none) _ = true
      rw [jget_jset_self]
      exact qinfLe_of_lt hlt
    · show qinfLe ((jget (jset st.distances n _) v).getD none) _ = true
      rw [jget_jset_ne _ _ hvn]
      exact qinfLe_refl _

theorem relaxFold_dist_le (g : Graph) (c : String) :
    ∀ (ns : List String) (st : DState) (v : String),
      qinfLe (dgetD ((ns.foldl (relaxOne g c) st)).distances v none)
        (dgetD st.distances v none) = true := by
  intro ns
  induction ns with
  | nil => intro st v; exact qinfLe_refl _
  | cons n rest ih =>
    intro st v
    rw [List.foldl_cons]
    exact qinfLe_trans _ _ _ (ih _ v) (relaxOne_dist_le g c st n v)

theorem relaxOne_dist_two_cases {g : Graph} {c : String} {st : DState} (n v : String)
    (_hc : c ∈ st.visited) :
    dgetD (relaxOne g c st n).distances v none = dgetD st.distances v none ∨
    dgetD (relaxOne g c st n).distances v none
      = qinfAdd (dgetD st.distances c none) (getEdgeWeight g c v) := by
  rcases relaxOne_cases g c st n with h | ⟨_, _, h⟩
  · rw [h]
    exact Or.inl rfl
  · rw [h]
    by_cases hvn : v = n
    · subst hvn
      right
      show (jget (jset st.distances v _) v).getD none = _
      rw [jget_jset_self]
      rfl
    · left
      show (jget (jset st.distances n _) v).getD none = _
      rw [jget_jset_ne _ _ hvn]
      rfl

theorem relaxFold_dist_two_cases {g : Graph} {c : String} :
    ∀ (ns : List String) (st : DState) (v : String), c ∈ st.visited →
      dgetD ((ns.foldl (relaxOne g c) st)).distances v none = dgetD st.distances v none ∨
      dgetD ((ns.foldl (relaxOne g c) st)).distances v none
        = qinfAdd (dgetD st.distances c none) (getEdgeWeight g c v) := by
  intro ns
  induction ns with
  | nil => intro st v _; exact Or.inl rfl
  | cons n rest ih =>
    intro st v hc
    rw [List.foldl_cons]
    have hcfrozen : dgetD (relaxOne g c st n).distances c none
        = dgetD st.distances c none := relaxOne_dist_frozen hc
    rcases ih (relaxOne g c st n) v (by rwa [relaxOne_visited]) with h | h
    · rcases relaxOne_dist_two_cases n v hc with h2 | h2
      · exact Or.inl (h.trans h2)
      · exact Or.inr (h.trans h2)
    · right
      rw [h, hcfrozen]

theorem relaxOne_relaxes_self {g : Graph} {c : String} {st : DState} (n : String) :
    qinfLe (dgetD (relaxOne g c st n).distances n none)
      (qinfAdd (dgetD st.distances c none) (getEdgeWeight g c n)) = true ∨
    st.visited.contains n = true := by
  rcases relaxOne_cases g c st n with h | ⟨_, _, h⟩
  · by_cases hvis : st.visited.contains n
    · exact Or.inr hvis
    · left
      rw [h]
      unfold relaxOne at h
      rw [if_neg hvis] at h
      by_cases hlt : qinfLt (qinfAdd (dgetD st.distances c none) (getEdgeWeight g c n))
          (dgetD st.distances n none) = true
      · rw [if_pos hlt] at h
        exfalso
        have : st.distances = jset st.distances n
            (qinfAdd (dgetD st.distances c none) (getEdgeWeight g c n)) := by
          conv_lhs => rw [← h]
        have hself : dgetD st.distances n none
            = qinfAdd (dgetD st.distances c none) (getEdgeWeight g c n) := by
          conv_lhs => rw [this]
          show (jget (jset st.distances n _) n).getD none = _
          rw [jget_jset_self]
          rfl
        rw [hself] at hlt
        rcases qinfLt_true_some hlt with ⟨q, hq⟩
        rw [hq] at hlt
        rw [qinfLt_some_some] at hlt
        exact lt_irrefl _ hlt
      · rw [Bool.not_eq_true] at hlt
        exact qinfLe_of_not_lt hlt
  · left
    rw [h]
    show qinfLe ((jget (jset st.distances n _) n).getD none) _ = true
    rw [jget_jset_self]
    exact qinfLe_refl _

theorem relaxFold_relaxes {g : Graph} {c : String} :
    ∀ (ns : List String) (st : DState), c ∈ st.visited →
      ∀ n ∈ ns, n ∉ st.visited →
      qinfLe (dgetD ((ns.foldl (relaxOne g c) st)).distances n none)
        (qinfAdd (dgetD st.distances c none) (getEdgeWeight g c n)) = true := by
  intro ns
  induction ns with
  | nil => intro st _ n hn; simp at hn
  | cons m rest ih =>
    intro st hc n hn hnvis
    rw [List.foldl_cons]
    have hcfrozen : dgetD (relaxOne g c st m).distances c none
        = dgetD st.distances c none := relaxOne_dist_frozen hc
    rcases List.mem_cons.mp hn with rfl | hn
    · have h1 : qinfLe (dgetD (relaxOne g c st n).distances n none)
          (qinfAdd (dgetD st.distances c none) (getEdgeWeight g c n)) = true := by
        rcases @relaxOne_relaxes_self g c st n with h | h
        · exact h
        · exact absurd (contains_iff_mem.mp h) hnvis
      exact qinfLe_trans _ _ _ (relaxFold_dist_le g c rest (relaxOne g c st n) n) h1
    · have := ih (relaxOne g c st m) (by rwa [relaxOne_visited])
        n hn (by rw [relaxOne_visited]; exact hnvis)
      rwa [hcfrozen] at this

theorem relaxOne_RInv {g : Graph} {s : String} {V : List String} {c n : String}
    {st : DState} (W : GWF g) (hV : st.visited = V) (hcV : c ∈ V)
    (hcK : c ∈ jkeys g.topics) (hedge : isEdge g c n) (R : RInv g s V st) :
    RInv g s V (relaxOne g c st n) := by
  rcases relaxOne_cases g c st n with heq | ⟨hnvis, hlt, heq⟩
  · rwa [heq]
  · have hnK : n ∈ jkeys g.topics := W.adjMem c n hedge
    rcases qinfLt_true_some hlt with ⟨nd, hnd⟩
    have hdc : ∃ dc, dgetD st.distances c none = some dc := by
      cases hc : dgetD st.distances c none with
      | none => rw [hc] at hnd; simp [qinfAdd] at hnd
      | some dc => exact ⟨dc, rfl⟩
    rcases hdc with ⟨dc, hdc⟩
    have hndval : nd = dc + getEdgeWeight g c n := by
      rw [hdc] at hnd
      injection hnd with hnd
      exact hnd.symm
    have hw1 : 1 ≤ getEdgeWeight g c n :=
      one_le_getEdgeWeight (jhas_iff_mem_jkeys.mpr hcK) (jhas_iff_mem_jkeys.mpr hnK)
    have hdist1 : ∀ v, dgetD (relaxOne g c st n).distances v none
        = if v = n then some nd else dgetD st.distances v none := by
      intro v
      rw [heq]
      by_cases hv : v = n
      · subst hv
        show (jget (jset st.distances v _) v).getD none = _
        rw [jget_jset_self, if_pos rfl, hnd]
        rfl
      · show (jget (jset st.distances n _) v).getD none = _
        rw [jget_jset_ne _ _ hv, if_neg hv]
        rfl
    have hprev1 : ∀ v, dgetD (relaxOne g c st n).previous v none
        = if v = n then some c else dgetD st.previous v none := by
      intro v
      rw [heq]
      by_cases hv : v = n
      · subst hv
        show (jget (jset st.previous v _) v).getD none = _
        rw [jget_jset_self, if_pos rfl]
        rfl
      · show (jget (jset st.previous n _) v).getD none = _
        rw [jget_jset_ne _ _ hv, if_neg hv]
        rfl
    have hns : n ≠ s := by
      intro hceq
      have h0 : dgetD st.distances n none = some 0 := by
        rw [hceq]
        exact R.distS
      rw [h0, hnd, qinfLt_some_some] at hlt
      have hdc0 : 0 ≤ dc := R.nonneg c dc hdc
      rw [hndval] at hlt
      linarith
    refine ⟨?_, ?_, ?_, ?_, ?_, ?_, ?_⟩
    · rw [heq]
      show jkeys (jset st.distances n _) = _
      rw [jkeys_jset_of_mem _ _ (by rw [R.dkeys]; exact hnK)]
      exact R.dkeys
    · rw [heq]
      show jkeys (jset st.previous n _) = _
      rw [jkeys_jset_of_mem _ _ (by rw [R.pkeys]; exact hnK)]
      exact R.pkeys
    · rw [hdist1 s, if_neg (fun hc => hns hc.symm)]
      exact R.distS
    · intro v q hq
      rw [hdist1 v] at hq
      by_cases hv : v = n
      · rw [if_pos hv] at hq
        injection hq with hq
        subst hq
        rw [hndval]
        have := R.nonneg c dc hdc
        linarith
      · rw [if_neg hv] at hq
        exact R.nonneg v q hq
    · intro v q hq
      rw [hdist1 v] at hq
      by_cases hv : v = n
      · subst hv
        rw [if_pos rfl] at hq
        injection hq with hq
        subst hq
        rcases R.sound c dc hdc with ⟨p, hp, hcalc⟩
        refine ⟨p ++ [v], IsPathFrom_append hp hedge, ?_⟩
        rw [calculatePathDistance_append_single g p c v hp.2.1, hcalc, hndval]
      · rw [if_neg hv] at hq
        exact R.sound v q hq
    · intro v u hu
      rw [hprev1 v] at hu
      by_cases hv : v = n
      · subst hv
        rw [if_pos rfl] at hu
        injection hu with hu
        subst hu
        have hcvis : c ∈ st.visited := by
          rw [hV]
          exact hcV
        have hun : c ≠ v := by
          intro hceq
          have hcontains : st.visited.contains v = true :=
            contains_iff_mem.mpr (hceq ▸ hcvis)
          rw [hcontains] at hnvis
          simp at hnvis
        refine ⟨hcV, hedge, dc, ?_, ?_⟩
        · rw [hdist1 c, if_neg hun]
          exact hdc
        · rw [hdist1 v, if_pos rfl, hndval]
      · rw [if_neg hv] at hu
        rcases R.prevSome v u hu with ⟨huV, hue, du, hdu, hdv⟩
        have hun : u ≠ n := by
          intro hc
          subst hc
          rw [← contains_iff_mem, ← hV] at huV
          rw [huV] at hnvis
          exact absurd hnvis (by simp)
        refine ⟨huV, hue, du, ?_, ?_⟩
        · rw [hdist1 u, if_neg hun]
          exact hdu
        · rw [hdist1 v, if_neg hv]
          exact hdv
    · intro v q hq
      rw [hdist1 v] at hq
      by_cases hv : v = n
      · subst hv
        right
        exact ⟨c, by rw [hprev1 v, if_pos rfl]⟩
      · rw [if_neg hv] at hq
        rcases R.finToPrev v q hq with hvs | ⟨u, hu⟩
        · exact Or.inl hvs
        · right
          exact ⟨u, by rw [hprev1 v, if_neg hv]; exact hu⟩

theorem relaxFold_RInv {g : Graph} {s : String} {V : List String} {c : String}
    (W : GWF g) (hcV : c ∈ V) (hcK : c ∈ jkeys g.topics) :
    ∀ (ns : List String) (st : DState), st.visited = V →
      (∀ x ∈ ns, isEdge g c x) → RInv g s V st →
      RInv g s V (ns.foldl (relaxOne g c) st) := by
  intro ns
  induction ns with
  | nil => intro st _ _ R; exact R
  | cons n rest ih =>
    intro st hV hns R
    rw [List.foldl_cons]
    refine ih _ (by rw [relaxOne_visited]; exact hV)
      (fun x hx => hns x (List.mem_cons_of_mem _ hx))
      (relaxOne_RInv W hV hcV hcK (hns n (List.mem_cons_self _ _)) R)

/-! ## Lemmas: paths and the exit analyses of the main loop -/

theorem calculatePathDistance_nonneg (g : Graph) :
    ∀ p, 0 ≤ calculatePathDistance g p := by
  intro p
  induction p with
  | nil => exact le_refl 0
  | cons a rest ih =>
    rcases rest with _ | ⟨b, rest'⟩
    · exact le_refl 0
    · rw [calculatePathDistance_cons_cons]
      have := getEdgeWeight_nonneg g a b
      linarith

theorem IsPathFrom_snoc_decomp {g : Graph} {s v x : String} {p : List String}
    (hp : p ≠ []) (h : IsPathFrom g s v (p ++ [x])) :
    v = x ∧ ∃ y, p.getLast? = some y ∧ IsPathFrom g s y p ∧ isEdge g y x := by
  rcases h with ⟨hhead, hlast, hchain⟩
  have hvx : v = x := by
    rw [List.getLast?_concat] at hlast
    exact (Option.some_inj.mp hlast).symm
  rcases List.chain'_append.mp hchain with ⟨hcp, _, hrel⟩
  have hy : ∃ y, p.getLast? = some y := by
    cases hgl : p.getLast? with
    | none => exact absurd (List.getLast?_eq_none_iff.mp hgl) hp
    | some y => exact ⟨y, rfl⟩
  rcases hy with ⟨y, hgl⟩
  refine ⟨hvx, y, hgl, ⟨?_, hgl, hcp⟩, ?_⟩
  · rwa [List.head?_append_of_ne_nil _ hp] at hhead
  · exact hrel y hgl x rfl

theorem path_dist_finite {g : Graph} {s t : String} {st : DState}
    (W : GWF g) (I : DInv g s t st)
    (hinf : ∀ x ∈ st.unvisited, dgetD st.distances x none = none) :
    ∀ (p : List String) (v : String), IsPathFrom g s v p →
      ∃ q, dgetD st.distances v none = some q := by
  intro p
  induction p using List.reverseRecOn with
  | nil =>
    intro v h
    exact absurd h.1 (by simp)
  | append_singleton p x ih =>
    intro v h
    by_cases hp : p = []
    · subst hp
      rcases h with ⟨hhead, hlast, _⟩
      have hx1 : x = s := by simpa using hhead
      have hx2 : x = v := by simpa using hlast
      refine ⟨0, ?_⟩
      rw [← hx2, hx1]
      exact I.distS
    · rcases IsPathFrom_snoc_decomp hp h with ⟨rfl, y, _, hyp, hedge⟩
      rcases ih y hyp with ⟨dy, hdy⟩
      have hyK : y ∈ jkeys g.topics := W.adjSrc y v hedge
      have hyvis : y ∈ st.visited := by
        rcases (I.part y).mp hyK with hv | hu
        · exact hv
        · rw [hinf y hu] at hdy
          exact absurd hdy (by simp)
      have hrel := I.relaxed y hyvis v hedge
      rw [hdy, qinfAdd_some] at hrel
      rcases qinfLe_some_dest hrel with ⟨a, ha, _⟩
      exact ⟨a, ha⟩

/-- Exit analysis when the minimum scan finds no finite unvisited
distance: the target is unreachable. -/
theorem no_path_of_all_unvisited_inf {g : Graph} {s t : String} {st : DState}
    (W : GWF g) (I : DInv g s t st)
    (hinf : ∀ x ∈ st.unvisited, dgetD st.distances x none = none) :
    ∀ p, ¬ IsPathFrom g s t p := by
  intro p hp
  rcases path_dist_finite W I hinf p t hp with ⟨q, hq⟩
  rw [hinf t I.tUnv] at hq
  exact absurd hq (by simp)

/-- Exit analysis when the selected node is the target: the selected
minimum bounds the weight of every path from the start. -/
theorem settled_min {g : Graph} {s t : String} {st : DState} {dc : ℚ}
    (W : GWF g) (I : DInv g s t st)
    (hmin : ∀ x ∈ st.unvisited, qinfLe (some dc) (dgetD st.distances x none) = true) :
    ∀ (p : List String) (v : String), IsPathFrom g s v p →
      (qinfLe (dgetD st.distances v none) (some (calculatePathDistance g p)) = true ∨
       dc ≤ calculatePathDistance g p) := by
  intro p
  induction p using List.reverseRecOn with
  | nil =>
    intro v h
    exact absurd h.1 (by simp)
  | append_singleton p x ih =>
    intro v h
    by_cases hp : p = []
    · subst hp
      rcases h with ⟨hhead, hlast, _⟩
      have hx1 : x = s := by simpa using hhead
      have hx2 : x = v := by simpa using hlast
      left
      rw [← hx2, hx1]
      simp only [List.nil_append]
      rw [calculatePathDistance_single, I.distS]
      exact qinfLe_refl _
    · rcases IsPathFrom_snoc_decomp hp h with ⟨rfl, y, hgl, hyp, hedge⟩
      have hyK : y ∈ jkeys g.topics := W.adjSrc y v hedge
      have hw0 : 0 ≤ getEdgeWeight g y v := getEdgeWeight_nonneg g y v
      have hcalc : calculatePathDistance g (p ++ [v])
          = calculatePathDistance g p + getEdgeWeight g y v :=
        calculatePathDistance_append_single g p y v hgl
      rcases ih y hyp with hle | hdc
      · rcases qinfLe_some_dest hle with ⟨dy, hdy, hdyle⟩
        rcases (I.part y).mp hyK with hyvis | hyunv
        · have hrel := I.relaxed y hyvis v hedge
          rw [hdy, qinfAdd_some] at hrel
          left
          rw [hcalc]
          exact qinfLe_trans _ _ _ hrel (qinfLe_some_some.mpr (by linarith))
        · right
          have hm := hmin y hyunv
          rw [hdy] at hm
          have hdcy : dc ≤ dy := qinfLe_some_some.mp hm
          rw [hcalc]
          linarith
      · right
        rw [hcalc]
        linarith

/-- One iteration of the main loop (settle the scanned minimum, relax its
neighbors) preserves the invariant when the settled node is not the
target. -/
theorem dijkstra_step {g : Graph} {s t c : String} {st : DState}
    (W : GWF g) (I : DInv g s t st)
    (hscan : scanMin st.distances st.unvisited none none = some c)
    (hct : c ≠ t) :
    DInv g s t ((adjOf g c).foldl (relaxOne g c)
      { st with unvisited := st.unvisited.erase c, visited := sadd st.visited c }) := by
  rcases scanMin_eq_some hscan with ⟨hcU, dc, hdc, hmin⟩
  have hcK : c ∈ jkeys g.topics := (I.part c).mpr (Or.inr hcU)
  set F := (adjOf g c).foldl (relaxOne g c)
    { st with unvisited := st.unvisited.erase c, visited := sadd st.visited c } with hF
  have R' : RInv g s (sadd st.visited c)
      { st with unvisited := st.unvisited.erase c, visited := sadd st.visited c } :=
    ⟨I.dkeys, I.pkeys, I.distS, I.nonneg, I.sound,
     fun v u hu => by
       rcases I.prevSome v u hu with ⟨huV, he, du, h1, h2⟩
       exact ⟨mem_sadd.mpr (Or.inl huV), he, du, h1, h2⟩,
     I.finToPrev⟩
  have R'' : RInv g s (sadd st.visited c) F :=
    relaxFold_RInv W (mem_sadd.mpr (Or.inr rfl)) hcK (adjOf g c) _ rfl
      (fun x hx => hx) R'
  have fvis : F.visited = sadd st.visited c := by
    rw [hF]
    exact relaxFold_visited g c (adjOf g c) _
  have funv : F.unvisited = st.unvisited.erase c := by
    rw [hF]
    exact relaxFold_unvisited g c (adjOf g c) _
  refine ⟨R''.dkeys, R''.pkeys, ?_, ?_, ?_, ?_, R''.distS, R''.nonneg, R''.sound,
    ?_, R''.finToPrev, ?_, ?_, ?_⟩
  · rw [funv]
    exact I.unvNodup.erase c
  · intro v
    rw [fvis, funv, mem_sadd, I.unvNodup.mem_erase_iff, I.part v]
    constructor
    · rintro (hv | hu)
      · exact Or.inl (Or.inl hv)
      · by_cases hvc : v = c
        · exact Or.inl (Or.inr hvc)
        · exact Or.inr ⟨hvc, hu⟩
    · rintro ((hv | rfl) | ⟨_, hu⟩)
      · exact Or.inl hv
      · exact Or.inr hcU
      · exact Or.inr hu
  · intro v hv
    rw [fvis, mem_sadd] at hv
    rw [funv, I.unvNodup.mem_erase_iff]
    rcases hv with hv | rfl
    · rintro ⟨_, hu⟩
      exact I.disj v hv hu
    · rintro ⟨hne, _⟩
      exact hne rfl
  · rw [funv, I.unvNodup.mem_erase_iff]
    exact ⟨Ne.symm hct, I.tUnv⟩
  · intro v u hu
    rcases R''.prevSome v u hu with ⟨huV, he, du, h1, h2⟩
    exact ⟨by rw [fvis]; exact huV, he, du, h1, h2⟩
  · intro u hu
    rw [fvis, mem_sadd] at hu
    have hufr : dgetD F.distances u none = dgetD st.distances u none := by
      rw [hF]
      exact relaxFold_dist_frozen (mem_sadd.mpr hu)
    rcases hu with hu | rfl
    · rcases I.visFin u hu with ⟨q, hq⟩
      exact ⟨q, by rw [hufr]; exact hq⟩
    · exact ⟨dc, by rw [hufr]; exact hdc⟩
  · intro u hu x hx
    rw [fvis, mem_sadd] at hu
    rw [funv, I.unvNodup.mem_erase_iff] at hx
    rcases hx with ⟨hxc, hxU⟩
    have hufr : dgetD F.distances u none = dgetD st.distances u none := by
      rw [hF]
      exact relaxFold_dist_frozen (mem_sadd.mpr hu)
    have hxcase : dgetD F.distances x none = dgetD st.distances x none ∨
        dgetD F.distances x none
          = qinfAdd (dgetD st.distances c none) (getEdgeWeight g c x) := by
      rw [hF]
      exact relaxFold_dist_two_cases (adjOf g c) _ x (mem_sadd.mpr (Or.inr rfl))
    rcases hu with hu | huc
    · rcases hxcase with hx1 | hx1
      · rw [hufr, hx1]
        exact I.mono u hu x hxU
      · rw [hufr, hx1, hdc, qinfAdd_some]
        have hm := I.mono u hu c hcU
        rw [hdc] at hm
        exact qinfLe_mono_right (by linarith [getEdgeWeight_nonneg g c x]) hm
    · rcases hxcase with hx1 | hx1
      · rw [hufr, huc, hdc, hx1]
        exact hmin x hxU
      · rw [hufr, huc, hdc, hx1, hdc, qinfAdd_some]
        exact qinfLe_some_some.mpr (by linarith [getEdgeWeight_nonneg g c x])
  · intro u hu v he
    rw [fvis, mem_sadd] at hu
    have hufr : dgetD F.distances u none = dgetD st.distances u none := by
      rw [hF]
      exact relaxFold_dist_frozen (mem_sadd.mpr hu)
    rcases hu with hu | huc
    · have h1 := I.relaxed u hu v he
      have h2 : qinfLe (dgetD F.distances v none) (dgetD st.distances v none) = true := by
        rw [hF]
        exact relaxFold_dist_le g c (adjOf g c) _ v
      rw [hufr]
      exact qinfLe_trans _ _ _ h2 h1
    · rw [huc] at hufr he
      rw [huc]
      by_cases hvv : v ∈ sadd st.visited c
      · have hvfr : dgetD F.distances v none = dgetD st.distances v none := by
          rw [hF]
          exact relaxFold_dist_frozen hvv
        rw [hufr, hvfr, hdc, qinfAdd_some]
        rcases mem_sadd.mp hvv with hv | hvc
        · have hm := I.mono v hv c hcU
          rw [hdc] at hm
          exact qinfLe_mono_right (by linarith [getEdgeWeight_nonneg g c v]) hm
        · rw [hvc, hdc]
          exact qinfLe_some_some.mpr (by linarith [getEdgeWeight_nonneg g c c])
      · have h1 : qinfLe (dgetD F.distances v none)
            (qinfAdd (dgetD st.distances c none) (getEdgeWeight g c v)) = true := by
          rw [hF]
          exact relaxFold_relaxes (adjOf g c) _ (mem_sadd.mpr (Or.inr rfl)) v he hvv
        rw [hufr]
        exact h1

/-- The main loop, run with fuel at least the unvisited count, ends in a
state satisfying the final description: either the target's distance is
`Infinity` and no path exists, or it is finite and bounds every path's
weight. -/
theorem dijkstraLoop_DFinal {g : Graph} {s t : String} (W : GWF g) :
    ∀ (fuel : Nat) (st : DState), DInv g s t st → st.unvisited.length ≤ fuel →
      DFinal g s t (dijkstraLoop g t fuel st) := by
  intro fuel
  induction fuel with
  | zero =>
    intro st I hlen
    have hnil : st.unvisited = [] := List.length_eq_zero.mp (Nat.le_zero.mp hlen)
    exact absurd I.tUnv (by rw [hnil]; simp)
  | succ fuel ih =>
    intro st I hlen
    rw [dijkstraLoop]
    have hemp : ¬ (st.unvisited.isEmpty = true) := by
      intro h
      exact absurd I.tUnv (by rw [List.isEmpty_iff.mp h]; simp)
    rw [if_neg hemp]
    cases hscan : scanMin st.distances st.unvisited none none with
    | none =>
      have hinf := scanMin_eq_none hscan
      exact ⟨I.dkeys, I.pkeys, I.distS, I.sound,
        fun v u hu => by
          rcases I.prevSome v u hu with ⟨huV, he, du, h1, h2⟩
          exact ⟨(I.part u).mpr (Or.inl huV), he, du, h1, h2⟩,
        I.finToPrev,
        Or.inl ⟨hinf t I.tUnv, no_path_of_all_unvisited_inf W I hinf⟩⟩
    | some c =>
      show DFinal g s t
        (if c = t then
          { st with unvisited := st.unvisited.erase c, visited := sadd st.visited c }
        else dijkstraLoop g t fuel ((adjOf g c).foldl (relaxOne g c)
          { st with unvisited := st.unvisited.erase c, visited := sadd st.visited c }))
      by_cases hct : c = t
      · subst hct
        rw [if_pos rfl]
        rcases scanMin_eq_some hscan with ⟨hcU, dc, hdc, hmin⟩
        refine ⟨I.dkeys, I.pkeys, I.distS, I.sound, ?_, I.finToPrev, ?_⟩
        · intro v u hu
          rcases I.prevSome v u hu with ⟨huV, he, du, h1, h2⟩
          exact ⟨(I.part u).mpr (Or.inl huV), he, du, h1, h2⟩
        · right
          refine ⟨dc, hdc, ?_⟩
          intro p hp
          rcases settled_min W I hmin p c hp with hle | hgt
          · rw [hdc] at hle
            exact qinfLe_some_some.mp hle
          · exact hgt
      · rw [if_neg hct]
        have hcU : c ∈ st.unvisited := (scanMin_eq_some hscan).1
        have hlen' : ((adjOf g c).foldl (relaxOne g c)
            { st with unvisited := st.unvisited.erase c,
                      visited := sadd st.visited c }).unvisited.length ≤ fuel := by
          rw [relaxFold_unvisited]
          show (st.unvisited.erase c).length ≤ fuel
          rw [List.length_erase_of_mem hcU]
          have h1 : 1 ≤ st.unvisited.length :=
            List.length_pos.mpr (List.ne_nil_of_mem hcU)
          omega
        exact ih _ (dijkstra_step W I hscan hct) hlen'

/-! ## Lemmas: path reconstruction -/

theorem jget_of_dgetD_some {α : Type} {m : JSMap (Option α)} {k : String} {q : α}
    (h : dgetD m k none = some q) : jget m k = some (some q) := by
  unfold dgetD at h
  cases hj : jget m k with
  | none =>
    rw [hj] at h
    simp at h
  | some x =>
    rw [hj] at h
    simp at h
    rw [h]

/-- The predecessor walk of `reconstructPath`: starting from any id with a
finite final distance it accumulates (front-first) an actual path from the
start, provided no key is the empty string.  The fuel need only exceed the
number of ids whose final distance is below the current one, which shrinks
at each step because every recorded edge weighs at least 1. -/
theorem reconPathGo_spec {g : Graph} {s t : String} {stF : DState}
    (F : DFinal g s t stF) (hne : ∀ k ∈ jkeys g.topics, k ≠ "") :
    ∀ (fuel : Nat) (v : String) (dv : ℚ) (acc : List String),
      dgetD stF.distances v none = some dv →
      ((jkeys g.topics).filter
        (fun x => qinfLt (dgetD stF.distances x none) (some dv))).length < fuel →
      ∃ p, reconPathGo stF.previous s fuel (some v) acc = p ++ acc ∧
        IsPathFrom g s v p ∧ calculatePathDistance g p = dv := by
  intro fuel
  induction fuel with
  | zero =>
    intro v dv acc _ hmea
    exact absurd hmea (Nat.not_lt_zero _)
  | succ fuel ih =>
    intro v dv acc hdv hmea
    rw [reconPathGo]
    show ∃ p, (if v = s then v :: acc
        else reconPathGo stF.previous s fuel (jsOrNull (jget stF.previous v)) (v :: acc))
        = p ++ acc ∧ IsPathFrom g s v p ∧ calculatePathDistance g p = dv
    by_cases hvs : v = s
    · subst hvs
      rw [if_pos rfl]
      have h0 : dv = 0 := by
        have hd := F.distS
        rw [hdv] at hd
        exact Option.some_inj.mp hd
      exact ⟨[v], rfl, IsPathFrom_single g v, by rw [calculatePathDistance_single, h0]⟩
    · rw [if_neg hvs]
      rcases F.finToPrev v dv hdv with hvs' | ⟨u, hu⟩
      · exact absurd hvs' hvs
      rcases F.prevSome v u hu with ⟨huK, hedge, du, hdu, hdv'⟩
      have hdveq : dv = du + getEdgeWeight g u v := by
        rw [hdv] at hdv'
        exact Option.some_inj.mp hdv'
      have hvK : v ∈ jkeys g.topics := by
        have hm := mem_jkeys_of_jget_some (jget_of_dgetD_some hdv)
        rwa [F.dkeys] at hm
      have hw1 : 1 ≤ getEdgeWeight g u v :=
        one_le_getEdgeWeight (jhas_iff_mem_jkeys.mpr huK) (jhas_iff_mem_jkeys.mpr hvK)
      have hdu_lt : du < dv := by
        rw [hdveq]
        linarith
      have hjs : jsOrNull (jget stF.previous v) = some u := by
        rw [jget_of_dgetD_some hu]
        show (if u = "" then none else some u) = some u
        rw [if_neg (hne u huK)]
      rw [hjs]
      have hmea' : ((jkeys g.topics).filter
          (fun x => qinfLt (dgetD stF.distances x none) (some du))).length < fuel := by
        have hlt : ((jkeys g.topics).filter
            (fun x => qinfLt (dgetD stF.distances x none) (some du))).length
            < ((jkeys g.topics).filter
              (fun x => qinfLt (dgetD stF.distances x none) (some dv))).length := by
          refine length_filter_strict ?_ huK ?_ ?_
          · intro a _ hP
            rcases qinfLt_true_some hP with ⟨qa, hqa⟩
            rw [hqa] at hP ⊢
            rw [qinfLt_some_some] at hP ⊢
            linarith
          · rw [hdu]
            exact qinfLt_some_some.mpr hdu_lt
          · rw [hdu]
            have : ¬ (du < du) := lt_irrefl du
            show decide (du < du) = false
            exact decide_eq_false this
        omega
      rcases ih u du (v :: acc) hdu hmea' with ⟨p, hrec, hpath, hcalc⟩
      refine ⟨p ++ [v], ?_, IsPathFrom_append hpath hedge, ?_⟩
      · rw [hrec]
        simp
      · rw [calculatePathDistance_append_single g p u v hpath.2.1, hcalc, hdveq]

/-- Full correctness of `findShortestPath` over any well-formed graph none
of whose keys is the empty string: `null` exactly for unreachable pairs,
otherwise a genuine minimum-weight path with its weight as distance. -/
theorem findShortestPath_correct {g : Graph} (W : GWF g)
    (hne : ∀ k ∈ jkeys g.topics, k ≠ "")
    (startId endId : String)
    (hs : jhas g.topics startId = true) (ht : jhas g.topics endId = true) :
    (findShortestPath g startId endId = none ↔ ¬ Reachable g startId endId) ∧
    ∀ r, findShortestPath g startId endId = some r →
      IsPathFrom g startId endId r.path ∧
      r.distance = some (calculatePathDistance g r.path) ∧
      ∀ p, IsPathFrom g startId endId p →
        calculatePathDistance g r.path ≤ calculatePathDistance g p := by
  by_cases hse : startId = endId
  · subst hse
    have hmain : findShortestPath g startId startId
        = some { path := [startId], distance := some 0,
                 topics := (jget g.topics startId).toList } := by
      simp only [findShortestPath]
      rw [if_neg (by simp [hs, ht]), if_pos trivial]
    refine ⟨?_, ?_⟩
    · rw [hmain]
      exact iff_of_false (by simp)
        (not_not_intro ⟨[startId], IsPathFrom_single g startId⟩)
    · intro r hr
      rw [hmain] at hr
      have hr' := Option.some_inj.mp hr
      subst hr'
      refine ⟨IsPathFrom_single g startId, ?_, ?_⟩
      · show some 0 = some (calculatePathDistance g [startId])
        rw [calculatePathDistance_single]
      · intro p _
        show calculatePathDistance g [startId] ≤ calculatePathDistance g p
        rw [calculatePathDistance_single]
        exact calculatePathDistance_nonneg g p
  · have I0 : DInv g startId endId (initDState g startId) :=
      initDState_DInv g startId endId W (jhas_iff_mem_jkeys.mp hs)
        (jhas_iff_mem_jkeys.mp ht)
    set stF := dijkstraLoop g endId (initDState g startId).unvisited.length
      (initDState g startId) with hstF
    have F : DFinal g startId endId stF :=
      dijkstraLoop_DFinal W _ _ I0 (le_refl _)
    rcases F.outcome with ⟨hdnone, hnopath⟩ | ⟨d, hd, hmin⟩
    · have hprevnone : jsOrNull (jget stF.previous endId) = none := by
        cases hj : jget stF.previous endId with
        | none => rfl
        | some o =>
          cases o with
          | none => rfl
          | some u =>
            exfalso
            have hu : dgetD stF.previous endId none = some u := by
              unfold dgetD
              rw [hj]
              rfl
            rcases F.prevSome endId u hu with ⟨_, _, du, _, hdv⟩
            rw [hdnone] at hdv
            exact absurd hdv (by simp)
      have hgo : reconPathGo stF.previous startId (stF.previous.length + 1)
          (some endId) [] = [endId] := by
        rw [reconPathGo]
        show (if endId = startId then [endId]
          else reconPathGo stF.previous startId stF.previous.length
            (jsOrNull (jget stF.previous endId)) [endId]) = [endId]
        rw [if_neg (fun hc => hse hc.symm), hprevnone]
        cases stF.previous.length with
        | zero => rfl
        | succ n => rfl
      have hrecon : reconstructPath stF.previous startId endId
          (stF.previous.length + 1) = [] := by
        unfold reconstructPath
        rw [hgo]
        rw [if_neg (by simp; exact fun hc => hse hc.symm)]
      have hmain : findShortestPath g startId endId = none := by
        simp only [findShortestPath]
        rw [if_neg (by simp [hs, ht]), if_neg hse, ← hstF, hrecon]
        rfl
      refine ⟨?_, ?_⟩
      · rw [hmain]
        exact iff_of_true rfl (fun hr => Exists.elim hr hnopath)
      · intro r hr
        rw [hmain] at hr
        exact absurd hr (by simp)
    · have hmea : ((jkeys g.topics).filter
          (fun x => qinfLt (dgetD stF.distances x none) (some d))).length
          < stF.previous.length + 1 := by
        have h1 := List.length_filter_le
          (fun x => qinfLt (dgetD stF.distances x none) (some d)) (jkeys g.topics)
        have h2 : (jkeys g.topics).length = stF.previous.length := by
          rw [← F.pkeys]
          simp [jkeys]
        omega
      rcases reconPathGo_spec F hne (stF.previous.length + 1) endId d [] hd hmea
        with ⟨p, hgo, hpath, hcalc⟩
      have hgo' : reconPathGo stF.previous startId (stF.previous.length + 1)
          (some endId) [] = p := by
        rw [hgo, List.append_nil]
      have hrecon : reconstructPath stF.previous startId endId
          (stF.previous.length + 1) = p := by
        unfold reconstructPath
        rw [hgo', if_pos hpath.1]
      have hpne : p.isEmpty = false := by
        cases hp : p with
        | nil =>
          rw [hp] at hpath
          exact absurd hpath.1 (by simp)
        | cons a l => rfl
      have hmain : findShortestPath g startId endId
          = some { path := p, distance := some d,
                   topics := p.filterMap (jget g.topics) } := by
        simp only [findShortestPath]
        rw [if_neg (by simp [hs, ht]), if_neg hse, ← hstF, hrecon,
          if_neg (by simp [hpne]), hd]
      refine ⟨?_, ?_⟩
      · rw [hmain]
        exact iff_of_false (by simp) (not_not_intro ⟨p, hpath⟩)
      · intro r hr
        rw [hmain] at hr
        have hr' := Option.some_inj.mp hr
        subst hr'
        refine ⟨hpath, ?_, ?_⟩
        · show some d = some (calculatePathDistance g p)
          rw [hcalc]
        · intro q hq
          show calculatePathDistance g p ≤ calculatePathDistance g q
          rw [hcalc]
          exact hmin q hq

/-- C1 (amended: provided no topic record has the empty string as its
id): for every graph built from a topic record list and every pair of ids
present in the graph, `findShortestPath` returns `null` exactly when the
end is unreachable from the start; otherwise the returned path starts at
the start id, ends at the end id, follows adjacency edges, and its
distance equals the weight of the returned path and is minimal over all
paths, regardless of how ties in the minimum selection were broken. -/
theorem C1_shortest_path_correct (tps : List ITopicData) (startId endId : String)
    (hids : ∀ r ∈ tps, r.id ≠ "")
    (hs : jhas (buildGraph tps).topics startId = true)
    (ht : jhas (buildGraph tps).topics endId = true) :
    (findShortestPath (buildGraph tps) startId endId = none ↔
      ¬ Reachable (buildGraph tps) startId endId) ∧
    ∀ r, findShortestPath (buildGraph tps) startId endId = some r →
      IsPathFrom (buildGraph tps) startId endId r.path ∧
      r.distance = some (calculatePathDistance (buildGraph tps) r.path) ∧
      ∀ p, IsPathFrom (buildGraph tps) startId endId p →
        calculatePathDistance (buildGraph tps) r.path
          ≤ calculatePathDistance (buildGraph tps) p := by
  refine findShortestPath_correct (buildGraph_GWF tps) ?_ startId endId hs ht
  intro k hk
  rcases (buildGraph_jhas_iff tps k).mp (jhas_iff_mem_jkeys.mpr hk) with ⟨r, hr, hrid⟩
  rw [← hrid]
  exact hids r hr

theorem C1_shortest_path_correct_witness :
    (∀ r ∈ exSample, r.id ≠ "") ∧
    jhas (buildGraph exSample).topics "root" = true ∧
    jhas (buildGraph exSample).topics "child1" = true ∧
    ((findShortestPath (buildGraph exSample) "root" "child1" = none ↔
      ¬ Reachable (buildGraph exSample) "root" "child1") ∧
     ∀ r, findShortestPath (buildGraph exSample) "root" "child1" = some r →
       IsPathFrom (buildGraph exSample) "root" "child1" r.path ∧
       r.distance = some (calculatePathDistance (buildGraph exSample) r.path) ∧
       ∀ p, IsPathFrom (buildGraph exSample) "root" "child1" p →
         calculatePathDistance (buildGraph exSample) r.path
           ≤ calculatePathDistance (buildGraph exSample) p) :=
  ⟨by decide, by decide, by decide,
   C1_shortest_path_correct exSample "root" "child1" (by decide) (by decide) (by decide)⟩

/-- C1 counterexample: on a two-record hierarchy in which the child's id
is the empty string, "p" is reachable from "" along an adjacency edge and
both ids are present in the graph, yet `findShortestPath` returns `null`:
walking predecessors, `previous.get(currentId) || null` collapses the
falsy id `""` to `null`, so the reconstructed chain never reaches the
start and is discarded. -/
theorem C1_counterexample :
    jhas exEmptyIdG.topics "" = true ∧ jhas exEmptyIdG.topics "p" = true ∧
    IsPathFrom exEmptyIdG "" "p" ["", "p"] ∧
    findShortestPath exEmptyIdG "" "p" = none := by
  refine ⟨by decide, by decide, ⟨rfl, rfl, ?_⟩, ?_⟩
  · exact chain'_of_pathChainB (by decide)
  · with_unfolding_all rfl
